import Mathlib

/-!
The grid helpers, graph helpers and breadth-first search of chrym.

A shallow embedding of the grid and graph part of `include/chrym.hpp`, with
`split_lines` and `gcd`.

Modelling conventions.

* `std::vector<T>` is `List T`; `std::string` is `List Char`.
* `int` is `Int`.  Container sizes are assumed to fit in an `int` (the source
  casts them with `static_cast<int>`), and the only arithmetic on `int` is a
  step of `+1`/`-1` from an in-range coordinate and `d + 1` on a distance that
  is bounded by the number of cells, so no operation wraps.
* `v[i]` is unchecked in the source.  Here every index goes through
  `vec_get`/`vec_set`, which report `Fault.out_of_range` where the source
  would have undefined behaviour.
* `while (!q.empty())` is iterated with a step budget.  The budget is the
  number of cells (nodes); running out of it is reported as
  `Fault.out_of_fuel`, never as a result.  The loop of `gcd` has the budget
  `|b|` in the same way.
* `GridRun.probes` and `GridRun.pushes` are ghost counters: they count the calls
  of the passability predicate and of `q.push`, and nothing reads them.
-/

namespace Chrym

/-! ## Faults and checked indexing -/

/-- What a run can die of instead of returning a value. -/
inductive Fault where
  | out_of_range
  | out_of_fuel
  | bad_length
deriving DecidableEq, Repr

deriving instance DecidableEq for Except

/-- The read `v[i]` of a `std::vector` by an `int` index, range-checked. -/
def vec_get {α : Type} (v : List α) (i : Int) : Except Fault α :=
  if i < 0 then .error .out_of_range
  else
    match v[i.toNat]? with
    | some a => .ok a
    | none => .error .out_of_range

/-- The write `v[i] = a` of a `std::vector` by an `int` index, range-checked. -/
def vec_set {α : Type} (v : List α) (i : Int) (a : α) : Except Fault (List α) :=
  if i < 0 then .error .out_of_range
  else if i.toNat < v.length then .ok (v.set i.toNat a)
  else .error .out_of_range

/-! ## Characters -/

/-- Source `is_digit`: `c >= '0' && c <= '9'`. -/
def is_digit (c : Char) : Bool :=
  decide ('0'.toNat ≤ c.toNat) && decide (c.toNat ≤ '9'.toNat)

/-! ## Grid helpers -/

/-- Source `struct Point2i { int x; int y; }`. -/
structure Point2i where
  x : Int
  y : Int
deriving DecidableEq, Repr

/-- Source `DIR4`: the four axis-aligned unit steps in the order `+x, -x, +y, -y`. -/
def DIR4 : List Point2i := [⟨1, 0⟩, ⟨-1, 0⟩, ⟨0, 1⟩, ⟨0, -1⟩]

/-- Source `Grid2D<T> = std::vector<std::vector<T>>`. -/
abbrev Grid2D (α : Type) := List (List α)

/-- Source `in_bounds(g, x, y)`:
`y >= 0 && y < (int)g.size() && x >= 0 && x < (int)g[y].size()`,
with the short-circuit order of `&&`; the row `g[y]` is read last. -/
def in_bounds {α : Type} (g : Grid2D α) (x y : Int) : Except Fault Bool :=
  if y ≥ 0 then
    if y < (g.length : Int) then
      if x ≥ 0 then
        match vec_get g y with
        | .ok row => .ok (decide (x < (row.length : Int)))
        | .error e => .error e
      else .ok false
    else .ok false
  else .ok false

/-- Source `at(g, p)`: the unchecked access `g[p.y][p.x]`. -/
def grid_at {α : Type} (g : Grid2D α) (p : Point2i) : Except Fault α :=
  match vec_get g p.y with
  | .ok row => vec_get row p.x
  | .error e => .error e

/-- The read `dist[p.y][p.x]`. -/
def dist_get (dist : List (List Int)) (p : Point2i) : Except Fault Int :=
  match vec_get dist p.y with
  | .ok row => vec_get row p.x
  | .error e => .error e

/-- The write `dist[p.y][p.x] = d`. -/
def dist_set (dist : List (List Int)) (p : Point2i) (d : Int) :
    Except Fault (List (List Int)) :=
  match vec_get dist p.y with
  | .ok row =>
    match vec_set row p.x d with
    | .ok row1 => vec_set dist p.y row1
    | .error e => .error e
  | .error e => .error e

/-- Source `parse_char_grid`: every line becomes the row of its characters. -/
def parse_char_grid (lines : List (List Char)) : Grid2D Char :=
  lines.foldl (fun g line => g ++ [line]) []

/-- The inner loop of `parse_int_grid` over one line: a digit is pushed as
`c - '0'`, any other character pushes nothing. -/
def parse_int_row (line : List Char) : List Int :=
  line.foldl
    (fun row c => if is_digit c then row ++ [(c.toNat : Int) - ('0'.toNat : Int)] else row) []

/-- Source `parse_int_grid`: every line becomes the row of its digit values. -/
def parse_int_grid (lines : List (List Char)) : Grid2D Int :=
  lines.foldl (fun g line => g ++ [parse_int_row line]) []

/-- The state of a run of `bfs_dist_grid`: the distance matrix, the queue
(front first), and two ghost counters. -/
structure GridRun where
  dist : List (List Int)
  q : List Point2i
  probes : Nat
  pushes : Nat
deriving DecidableEq, Repr

/-- One pass of the body of `for (auto dir : DIR4)` in `bfs_dist_grid`, for the
dequeued point `p` whose distance is `d`. -/
def bfs_grid_visit {α : Type} (g : Grid2D α) (passable : α → Bool) (p : Point2i) (d : Int)
    (s : GridRun) (dir : Point2i) : Except Fault GridRun :=
  let np : Point2i := ⟨p.x + dir.x, p.y + dir.y⟩
  match in_bounds g np.x np.y with
  | .error e => .error e
  | .ok false => .ok s
  | .ok true =>
    match dist_get s.dist np with
    | .error e => .error e
    | .ok v =>
      if v ≠ -1 then .ok s
      else
        match grid_at g np with
        | .error e => .error e
        | .ok c =>
          if !passable c then .ok { s with probes := s.probes + 1 }
          else
            match dist_set s.dist np (d + 1) with
            | .error e => .error e
            | .ok dist1 =>
              .ok { dist := dist1, q := s.q ++ [np], probes := s.probes + 1,
                    pushes := s.pushes + 1 }

/-- The loop `for (auto dir : DIR4)` over a list of directions. -/
def bfs_grid_dirs {α : Type} (g : Grid2D α) (passable : α → Bool) (p : Point2i) (d : Int) :
    List Point2i → GridRun → Except Fault GridRun
  | [], s => .ok s
  | dir :: dirs, s =>
    match bfs_grid_visit g passable p d s dir with
    | .ok s1 => bfs_grid_dirs g passable p d dirs s1
    | .error e => .error e

/-- The loop `while (!q.empty())` of `bfs_dist_grid`, at most `fuel` rounds. -/
def bfs_grid_loop {α : Type} (g : Grid2D α) (passable : α → Bool) :
    Nat → GridRun → Except Fault GridRun
  | fuel, s =>
    match s.q with
    | [] => .ok s
    | p :: rest =>
      match fuel with
      | 0 => .error .out_of_fuel
      | fuel1 + 1 =>
        match dist_get s.dist p with
        | .error e => .error e
        | .ok d =>
          match bfs_grid_dirs g passable p d DIR4 { s with q := rest } with
          | .ok s1 => bfs_grid_loop g passable fuel1 s1
          | .error e => .error e

/-- The width `W = H ? (int)g[0].size() : 0` used for every row of `dist`. -/
def grid_width {α : Type} (g : Grid2D α) : Nat :=
  match g with
  | [] => 0
  | row0 :: _ => row0.length

/-- Source `bfs_dist_grid` with its final run state (distance matrix, emptied queue,
ghost counters). -/
def bfs_grid_run {α : Type} (g : Grid2D α) (start : Point2i) (passable : α → Bool) :
    Except Fault GridRun :=
  let H := g.length
  let W := grid_width g
  let dist : List (List Int) := List.replicate H (List.replicate W (-1))
  match in_bounds g start.x start.y with
  | .error e => .error e
  | .ok false => .ok { dist := dist, q := [], probes := 0, pushes := 0 }
  | .ok true =>
    match dist_set dist start 0 with
    | .error e => .error e
    | .ok dist0 =>
      bfs_grid_loop g passable (H * W) { dist := dist0, q := [start], probes := 0, pushes := 1 }

/-- Source `bfs_dist_grid(g, start, passable)`: the distance matrix, `-1` for
unreached cells. -/
def bfs_dist_grid {α : Type} (g : Grid2D α) (start : Point2i) (passable : α → Bool) :
    Except Fault (List (List Int)) :=
  match bfs_grid_run g start passable with
  | .ok s => .ok s.dist
  | .error e => .error e

/-! ## Graph helpers -/

/-- Source `AdjList = std::vector<std::vector<int>>`. -/
abbrev AdjList := List (List Int)

/-- Source `make_adj_list(n)`: `AdjList(n)`; a negative `n` is no vector length. -/
def make_adj_list (n : Int) : Except Fault AdjList :=
  if n < 0 then .error .bad_length else .ok (List.replicate n.toNat [])

/-- Source `add_directed_edge(g, u, v)`: `g[u].push_back(v)`. -/
def add_directed_edge (g : AdjList) (u v : Int) : Except Fault AdjList :=
  match vec_get g u with
  | .ok nb => vec_set g u (nb ++ [v])
  | .error e => .error e

/-- Source `add_undirected_edge(g, u, v)`: `g[u].push_back(v); g[v].push_back(u);`. -/
def add_undirected_edge (g : AdjList) (u v : Int) : Except Fault AdjList :=
  match vec_get g u with
  | .error e => .error e
  | .ok nbu =>
    match vec_set g u (nbu ++ [v]) with
    | .error e => .error e
    | .ok g1 =>
      match vec_get g1 v with
      | .error e => .error e
      | .ok nbv => vec_set g1 v (nbv ++ [u])

/-- The state of a run of `bfs_dist`: the distance vector and the queue. -/
structure GraphRun where
  dist : List Int
  q : List Int
deriving DecidableEq, Repr

/-- One pass of the body of `for (int to : g[v])` in `bfs_dist`. -/
def bfs_visit (d : Int) (s : GraphRun) (nxt : Int) : Except Fault GraphRun :=
  match vec_get s.dist nxt with
  | .error e => .error e
  | .ok x =>
    if x = -1 then
      match vec_set s.dist nxt (d + 1) with
      | .error e => .error e
      | .ok dist1 => .ok { dist := dist1, q := s.q ++ [nxt] }
    else .ok s

/-- The loop `for (int to : g[v])` over a neighbour list. -/
def bfs_nbrs (d : Int) : List Int → GraphRun → Except Fault GraphRun
  | [], s => .ok s
  | nxt :: rest, s =>
    match bfs_visit d s nxt with
    | .ok s1 => bfs_nbrs d rest s1
    | .error e => .error e

/-- The loop `while (!q.empty())` of `bfs_dist`, at most `fuel` rounds. -/
def bfs_loop (g : AdjList) : Nat → GraphRun → Except Fault GraphRun
  | fuel, s =>
    match s.q with
    | [] => .ok s
    | v :: rest =>
      match fuel with
      | 0 => .error .out_of_fuel
      | fuel1 + 1 =>
        match vec_get s.dist v with
        | .error e => .error e
        | .ok d =>
          match vec_get g v with
          | .error e => .error e
          | .ok nb =>
            match bfs_nbrs d nb { s with q := rest } with
            | .ok s1 => bfs_loop g fuel1 s1
            | .error e => .error e

/-- Source `bfs_dist(g, src)`: the distance vector, `-1` for unreached nodes. -/
def bfs_dist (g : AdjList) (src : Int) : Except Fault (List Int) :=
  let dist : List Int := List.replicate g.length (-1)
  match vec_set dist src 0 with
  | .error e => .error e
  | .ok dist0 =>
    match bfs_loop g g.length { dist := dist0, q := [src] } with
    | .ok s => .ok s.dist
    | .error e => .error e

/-! ## Paths -/

/-- A walk of exactly `n` edges of the relation `E` that starts at `src` and
ends at the given node. -/
inductive Walk {V : Type} (E : V → V → Prop) (src : V) : Nat → V → Prop where
  | start : Walk E src 0 src
  | step {n : Nat} {v w : V} : Walk E src n v → E v w → Walk E src (n + 1) w

/-- One unit step of a 4-directional grid path from `a` to `b`: `b` is `a`
moved by one of `DIR4`, lies in bounds of `g`, and its cell is passable. -/
def GridStep {α : Type} (g : Grid2D α) (passable : α → Bool) (a b : Point2i) : Prop :=
  (∃ dir ∈ DIR4, b = ⟨a.x + dir.x, a.y + dir.y⟩) ∧
    in_bounds g b.x b.y = .ok true ∧ ∃ c, grid_at g b = .ok c ∧ passable c = true

/-- A 4-directional path of exactly `n` unit steps from `start` to `c` whose
cells after `start` are all in bounds and passable. -/
def GridPath {α : Type} (g : Grid2D α) (passable : α → Bool) (start : Point2i) (n : Nat)
    (c : Point2i) : Prop :=
  Walk (GridStep g passable) start n c

/-- One edge of an adjacency list: `v` occurs in the neighbour list of `u`. -/
def GraphStep (g : AdjList) (u v : Int) : Prop :=
  ∃ nb, vec_get g u = .ok nb ∧ v ∈ nb

/-- A directed path of exactly `n` edges from `src` to `v` along the
neighbour lists of `g`. -/
def GraphPath (g : AdjList) (src : Int) (n : Nat) (v : Int) : Prop :=
  Walk (GraphStep g) src n v

/-- All rows of the grid have the length of the first one. -/
def Rectangular {α : Type} (g : Grid2D α) : Prop :=
  ∀ row ∈ g, row.length = grid_width g

/-- Every neighbour id of the adjacency list is a node id. -/
def WellFormed (g : AdjList) : Prop :=
  ∀ nb ∈ g, ∀ v ∈ nb, 0 ≤ v ∧ v < (g.length : Int)

/-- The entry of a distance vector at `v`, read as `-1` outside its range. -/
def vdist (dist : List Int) (v : Int) : Int :=
  match vec_get dist v with
  | .ok x => x
  | .error _ => -1

/-- The entry of a distance matrix at `p`, read as `-1` outside its range. -/
def mdist (dist : List (List Int)) (p : Point2i) : Int :=
  match dist_get dist p with
  | .ok x => x
  | .error _ => -1

/-- The distance matrix has `H` rows of `W` entries each. -/
def Shape (dist : List (List Int)) (H W : Nat) : Prop :=
  dist.length = H ∧ ∀ row ∈ dist, row.length = W

/-- The number of `-1` entries of a distance matrix. -/
def unreached (dist : List (List Int)) : Nat :=
  (dist.map (fun row => row.count (-1))).sum

/-! ## The invariant of the search -/

/-- The queue invariant of breadth-first search over a distance map `D`, where
`D v = -1` means that `v` has not been reached.  It is what holds between two
pushes; the queue may still hold the node being expanded, as its head. -/
structure QInv {V : Type} (E : V → V → Prop) (src : V) (D : V → Int) (q : List V) : Prop where
  src0 : D src = 0
  sound : ∀ v, D v ≠ -1 → ∃ n : Nat, D v = (n : Int) ∧ Walk E src n v
  qvis : ∀ u ∈ q, D u ≠ -1
  sorted : q.Pairwise (fun a b => D a ≤ D b)
  near : ∀ v, D v ≠ -1 → ∀ u ∈ q, D v ≤ D u + 1
  closed : ∀ v, D v ≠ -1 → v ∉ q → ∀ w, E v w → D w ≠ -1 ∧ D w ≤ D v + 1

/-! ## The graph of a grid -/

/-- The node id of the cell `(x, y)` in a grid of width `W`: `y * W + x`. -/
def cell_id (W : Nat) (c : Point2i) : Int := c.y * (W : Int) + c.x

/-- The cell is in bounds of `g` and passable. -/
def OpenCell {α : Type} (g : Grid2D α) (passable : α → Bool) (c : Point2i) : Prop :=
  in_bounds g c.x c.y = .ok true ∧ ∃ v, grid_at g c = .ok v ∧ passable v = true

/-- A pair of 4-adjacent cells that are both in bounds and passable. -/
def CellEdge {α : Type} (g : Grid2D α) (passable : α → Bool) (a b : Point2i) : Prop :=
  (∃ dir ∈ DIR4, b = ⟨a.x + dir.x, a.y + dir.y⟩) ∧ OpenCell g passable a ∧ OpenCell g passable b

/-- A call of `add_undirected_edge` for every pair of a list, in order. -/
def add_undirected_edges : AdjList → List (Int × Int) → Except Fault AdjList
  | g, [] => .ok g
  | g, e :: es =>
    match add_undirected_edge g e.1 e.2 with
    | .ok g1 => add_undirected_edges g1 es
    | .error e => .error e

/-- The adjacency list `G` is built by `make_adj_list (H * W)` and calls of
`add_undirected_edge`, and its undirected edges join exactly the pairs of
4-adjacent cells of `g` that are both passable, a cell being the node
`cell_id W`. -/
def GridGraph {α : Type} (g : Grid2D α) (passable : α → Bool) (G : AdjList) : Prop :=
  ∃ g0 es, make_adj_list ((g.length : Int) * (grid_width g : Int)) = .ok g0 ∧
    add_undirected_edges g0 es = .ok G ∧
    ∀ u v : Int, ((u, v) ∈ es ∨ (v, u) ∈ es) ↔
      ∃ a b, CellEdge g passable a b ∧ u = cell_id (grid_width g) a ∧
        v = cell_id (grid_width g) b

/-- Graph search on the graph of the grid and grid search agree: for every
graph `G` of the grid both return, and the entry of `bfs_dist` at the id of
an in-bounds cell is the entry of `bfs_dist_grid` at the cell. -/
def GraphAgrees {α : Type} (g : Grid2D α) (start : Point2i) (passable : α → Bool) : Prop :=
  ∀ G, GridGraph g passable G →
    ∃ dg dm, bfs_dist G (cell_id (grid_width g) start) = .ok dg ∧
      bfs_dist_grid g start passable = .ok dm ∧
      ∀ c : Point2i, in_bounds g c.x c.y = .ok true →
        ∃ d, vec_get dg (cell_id (grid_width g) c) = .ok d ∧ dist_get dm c = .ok d

/-! ## String helpers -/

/-- The statement `if (!cur.empty() && cur.back() == '\r') cur.pop_back();`. -/
def strip_cr (cur : List Char) : List Char :=
  if !cur.isEmpty && cur.getLast? == some '\r' then cur.dropLast else cur

/-- The block `if (!cur.empty() || !skip_empty) { strip; res.push_back(cur); }`
of `split_lines`. -/
def flush_line (skip_empty : Bool) (res : List (List Char)) (cur : List Char) :
    List (List Char) :=
  if !cur.isEmpty || !skip_empty then res ++ [strip_cr cur] else res

/-- One pass of the body of `for (char c : s)` in `split_lines`, on the pair of
`res` and `cur`. -/
def split_lines_step (skip_empty : Bool) (st : List (List Char) × List Char) (c : Char) :
    List (List Char) × List Char :=
  if c = '\n' then (flush_line skip_empty st.1 st.2, [])
  else (st.1, st.2 ++ [c])

/-- Source `split_lines(s, skip_empty)`. -/
def split_lines (s : List Char) (skip_empty : Bool) : List (List Char) :=
  let st := s.foldl (split_lines_step skip_empty) ([], [])
  flush_line skip_empty st.1 st.2

/-! ## Math helpers -/

/-- The loop `while (b != 0) { t = a % b; a = b; b = t; }` of `gcd` followed by
`return a < 0 ? -a : a`, at most `fuel` rounds; `%` truncates toward zero. -/
def gcd_loop : Nat → Int → Int → Except Fault Int
  | fuel, a, b =>
    if b ≠ 0 then
      match fuel with
      | 0 => .error .out_of_fuel
      | fuel1 + 1 => gcd_loop fuel1 b (a.tmod b)
    else .ok (if a < 0 then -a else a)

/-- Source `gcd(a, b)` over exact integers; the budget is `|b|` rounds. -/
def gcd (a b : Int) : Except Fault Int :=
  gcd_loop b.natAbs a b

/-! ## Sequences of edge insertions -/

/-- A call of `add_directed_edge(g, u, v)` or of `add_undirected_edge(g, u, v)`. -/
inductive EdgeCall where
  | directed (u v : Int)
  | undirected (u v : Int)
deriving DecidableEq, Repr

/-- The endpoints of the call are node ids of a graph with `n` nodes. -/
def EdgeCall.InRange (n : Nat) : EdgeCall → Prop
  | .directed u v => (0 ≤ u ∧ u < (n : Int)) ∧ (0 ≤ v ∧ v < (n : Int))
  | .undirected u v => (0 ≤ u ∧ u < (n : Int)) ∧ (0 ≤ v ∧ v < (n : Int))

/-- The graph after one call. -/
def apply_call (g : AdjList) : EdgeCall → Except Fault AdjList
  | .directed u v => add_directed_edge g u v
  | .undirected u v => add_undirected_edge g u v

/-- The graph after a sequence of calls, in order. -/
def apply_calls : AdjList → List EdgeCall → Except Fault AdjList
  | g, [] => .ok g
  | g, c :: cs =>
    match apply_call g c with
    | .ok g1 => apply_calls g1 cs
    | .error e => .error e

/-! ## The pushes of a grid search -/

/-- The cells that the queue loop of `bfs_dist_grid` pushes when it runs from the
state `s`, in the order of the pushes: each round contributes what it has
appended to the queue. -/
def bfs_grid_pushed {α : Type} (g : Grid2D α) (passable : α → Bool) :
    Nat → GridRun → Except Fault (List Point2i)
  | fuel, s =>
    match s.q with
    | [] => .ok []
    | p :: rest =>
      match fuel with
      | 0 => .error .out_of_fuel
      | fuel1 + 1 =>
        match dist_get s.dist p with
        | .error e => .error e
        | .ok d =>
          match bfs_grid_dirs g passable p d DIR4 { s with q := rest } with
          | .error e => .error e
          | .ok s1 =>
            match bfs_grid_pushed g passable fuel1 s1 with
            | .ok log => .ok (s1.q.drop rest.length ++ log)
            | .error e => .error e

/-- The cells that a call of `bfs_dist_grid` pushes, in order: `start`, then
the pushes of the queue loop; none when `start` is out of bounds. -/
def bfs_grid_pushes {α : Type} (g : Grid2D α) (start : Point2i) (passable : α → Bool) :
    Except Fault (List Point2i) :=
  let H := g.length
  let W := grid_width g
  let dist : List (List Int) := List.replicate H (List.replicate W (-1))
  match in_bounds g start.x start.y with
  | .error e => .error e
  | .ok false => .ok []
  | .ok true =>
    match dist_set dist start 0 with
    | .error e => .error e
    | .ok dist0 =>
      match bfs_grid_pushed g passable (H * W)
          { dist := dist0, q := [start], probes := 0, pushes := 1 } with
      | .ok log => .ok (start :: log)
      | .error e => .error e

/-! ## The states of a grid search -/

/-- What may lie between two consecutive states of a run of `bfs_dist_grid`:
either the distance matrix is untouched and nothing is pushed, or one cell whose
entry is `-1` is written with a value other than `-1`, no other entry changes,
and that cell is pushed. -/
def WriteStep (a b : GridRun) : Prop :=
  (b.dist = a.dist ∧ b.pushes = a.pushes) ∨
  ∃ np v, mdist a.dist np = -1 ∧ v ≠ -1 ∧
    (∀ c, mdist b.dist c = if c = np then v else mdist a.dist c) ∧
    b.pushes = a.pushes + 1 ∧ b.q = a.q ++ [np]

/-- Every entry of `a` other than `-1` is still the entry of `b`. -/
def KeepsEntries (a b : GridRun) : Prop :=
  ∀ c, mdist a.dist c ≠ -1 → mdist b.dist c = mdist a.dist c

/-- The states after each pass of the body of `for (auto dir : DIR4)` in
`bfs_dist_grid`, in order, for the dequeued point `p` whose distance is `d`. -/
def bfs_grid_dirs_states {α : Type} (g : Grid2D α) (passable : α → Bool) (p : Point2i)
    (d : Int) : List Point2i → GridRun → Except Fault (List GridRun)
  | [], _ => .ok []
  | dir :: dirs, s =>
    match bfs_grid_visit g passable p d s dir with
    | .error e => .error e
    | .ok s1 =>
      match bfs_grid_dirs_states g passable p d dirs s1 with
      | .ok t => .ok (s1 :: t)
      | .error e => .error e

/-- The states that the queue loop of `bfs_dist_grid` passes through when it
runs from `s`, in order: `s`, then for each round the state after the pop, the
states after each pass of the direction loop, and the states of the rounds
that follow. -/
def bfs_grid_states {α : Type} (g : Grid2D α) (passable : α → Bool) :
    Nat → GridRun → Except Fault (List GridRun)
  | fuel, s =>
    match s.q with
    | [] => .ok [s]
    | p :: rest =>
      match fuel with
      | 0 => .error .out_of_fuel
      | fuel1 + 1 =>
        match dist_get s.dist p with
        | .error e => .error e
        | .ok d =>
          match bfs_grid_dirs_states g passable p d DIR4 { s with q := rest } with
          | .error e => .error e
          | .ok t =>
            match bfs_grid_dirs g passable p d DIR4 { s with q := rest } with
            | .error e => .error e
            | .ok s1 =>
              match bfs_grid_states g passable fuel1 s1 with
              | .ok t2 => .ok (s :: ({ s with q := rest } :: t) ++ t2)
              | .error e => .error e

/-- The states that a call of `bfs_dist_grid` passes through, in order: the
state with the fresh matrix of `-1`, then, when `start` is in bounds, the state
after `dist[start] = 0; q.push(start)` and the states of the queue loop. -/
def bfs_grid_run_states {α : Type} (g : Grid2D α) (start : Point2i) (passable : α → Bool) :
    Except Fault (List GridRun) :=
  let H := g.length
  let W := grid_width g
  let dist : List (List Int) := List.replicate H (List.replicate W (-1))
  match in_bounds g start.x start.y with
  | .error e => .error e
  | .ok false => .ok [{ dist := dist, q := [], probes := 0, pushes := 0 }]
  | .ok true =>
    match dist_set dist start 0 with
    | .error e => .error e
    | .ok dist0 =>
      match bfs_grid_states g passable (H * W)
          { dist := dist0, q := [start], probes := 0, pushes := 1 } with
      | .ok t => .ok ({ dist := dist, q := [], probes := 0, pushes := 0 } :: t)
      | .error e => .error e

/-! ## Example inputs -/

/-- The grid `["...", ".#.", "..."]`. -/
def ring_grid : Grid2D Char := [['.', '.', '.'], ['.', '#', '.'], ['.', '.', '.']]

/-- The passability predicate "not `#`". -/
def not_wall (c : Char) : Bool := c != '#'

/-- A jagged grid: `["a", "bc"]`. -/
def jagged_grid : Grid2D Char := [['a'], ['b', 'c']]

/-- The path graph on four nodes: undirected edges (0,1), (1,2), (2,3). -/
def path_graph : AdjList := [[1], [0, 2], [1, 3], [2]]

/-- A one-row grid whose first cell is a wall: `["#."]`. -/
def wall_grid : Grid2D Char := [['#', '.']]

/-- A one-row grid of two free cells: `[".."]`. -/
def free_grid : Grid2D Char := [['.', '.']]

instance {α : Type} (g : Grid2D α) : Decidable (Rectangular g) := by
  unfold Rectangular; infer_instance

instance (g : AdjList) : Decidable (WellFormed g) := by
  unfold WellFormed; infer_instance

/-! ## Checked indexing: basic facts -/

theorem vec_get_eq_ok {α : Type} {v : List α} {i : Int} {a : α} :
    vec_get v i = .ok a ↔ 0 ≤ i ∧ v[i.toNat]? = some a := by
  unfold vec_get
  by_cases hi : i < 0
  · simp [hi]
  · cases hv : v[i.toNat]? with
    | none => simp [hi]
    | some b => simp [hi]; intro _; omega

theorem vec_get_of_lt {α : Type} {v : List α} {i : Int} (h0 : 0 ≤ i) (h1 : i < (v.length : Int)) :
    ∃ a, vec_get v i = .ok a ∧ v[i.toNat]? = some a := by
  have hlt : i.toNat < v.length := by omega
  refine ⟨v[i.toNat], ?_, ?_⟩
  · rw [vec_get_eq_ok]; exact ⟨h0, List.getElem?_eq_getElem hlt⟩
  · exact List.getElem?_eq_getElem hlt

theorem vec_get_error {α : Type} {v : List α} {i : Int} (h : i < 0 ∨ (v.length : Int) ≤ i) :
    vec_get v i = .error .out_of_range := by
  unfold vec_get
  by_cases hi : i < 0
  · simp [hi]
  · have hge : v.length ≤ i.toNat := by omega
    simp [hi, List.getElem?_eq_none hge]

theorem vec_set_eq_ok {α : Type} {v w : List α} {i : Int} {a : α} :
    vec_set v i a = .ok w ↔ 0 ≤ i ∧ i.toNat < v.length ∧ w = v.set i.toNat a := by
  unfold vec_set
  by_cases hi : i < 0
  · simp [hi]
  · by_cases hl : i.toNat < v.length
    · simp [hi, hl]
      constructor
      · intro h; exact ⟨by omega, h.symm⟩
      · intro h; exact h.2.symm
    · simp [hi, hl]

theorem vec_set_of_lt {α : Type} (v : List α) {i : Int} (a : α) (h0 : 0 ≤ i)
    (h1 : i < (v.length : Int)) : vec_set v i a = .ok (v.set i.toNat a) := by
  rw [vec_set_eq_ok]; exact ⟨h0, by omega, rfl⟩

/-- The value `in_bounds` computes, in closed form: it never faults. -/
theorem in_bounds_eq {α : Type} (g : Grid2D α) (x y : Int) :
    in_bounds g x y =
      .ok (decide (0 ≤ y ∧ y < (g.length : Int) ∧ 0 ≤ x ∧
        x < (((g.getD y.toNat []).length : Nat) : Int))) := by
  unfold in_bounds
  by_cases hy : y ≥ 0
  · by_cases hy2 : y < (g.length : Int)
    · by_cases hx : x ≥ 0
      · obtain ⟨row, hrow, hrow2⟩ := vec_get_of_lt hy hy2
        simp only [hy, hy2, hx, if_true, hrow]
        simp [hrow2, ge_iff_le.mp hy, ge_iff_le.mp hx, hy2]
      · have hx2 : ¬ (0 ≤ x) := hx
        simp [hy, hy2, hx, hx2]
    · simp [hy, hy2]
  · have hy2 : ¬ (0 ≤ y) := hy
    simp [hy, hy2]

theorem in_bounds_true_iff {α : Type} (g : Grid2D α) (x y : Int) :
    in_bounds g x y = .ok true ↔
      0 ≤ y ∧ y < (g.length : Int) ∧ 0 ≤ x ∧ x < (((g.getD y.toNat []).length : Nat) : Int) := by
  rw [in_bounds_eq]; simp

theorem parse_char_grid_eq (lines : List (List Char)) : parse_char_grid lines = lines := by
  unfold parse_char_grid
  have h : ∀ (ls acc : List (List Char)),
      ls.foldl (fun g line => g ++ [line]) acc = acc ++ ls := by
    intro ls
    induction ls with
    | nil => intro acc; simp
    | cons l ls ih => intro acc; simp [ih]
  simpa using h lines []

theorem parse_int_row_eq (line : List Char) :
    parse_int_row line
      = (line.filter is_digit).map (fun c => (c.toNat : Int) - ('0'.toNat : Int)) := by
  unfold parse_int_row
  have h : ∀ (cs : List Char) (acc : List Int),
      cs.foldl (fun row c =>
          if is_digit c then row ++ [(c.toNat : Int) - ('0'.toNat : Int)] else row) acc
        = acc ++ (cs.filter is_digit).map (fun c => (c.toNat : Int) - ('0'.toNat : Int)) := by
    intro cs
    induction cs with
    | nil => intro acc; simp
    | cons c cs ih =>
      intro acc
      by_cases hc : is_digit c = true
      · rw [List.foldl_cons, if_pos hc, ih, List.filter_cons, if_pos hc]
        simp
      · rw [List.foldl_cons, if_neg hc, ih, List.filter_cons, if_neg hc]
  simpa using h line []

theorem parse_int_grid_eq (lines : List (List Char)) :
    parse_int_grid lines = lines.map parse_int_row := by
  unfold parse_int_grid
  have h : ∀ (ls : List (List Char)) (acc : List (List Int)),
      ls.foldl (fun g line => g ++ [parse_int_row line]) acc = acc ++ ls.map parse_int_row := by
    intro ls
    induction ls with
    | nil => intro acc; simp
    | cons l ls ih => intro acc; simp [ih]
  simpa using h lines []

/-! ## Breadth-first search over an abstract distance map

The lemmas that carry `QInv` through a search: at the start, when a new
neighbour is pushed, and when the expanded node leaves the queue. -/

section Generic

variable {V : Type} (E : V → V → Prop) (src : V)

theorem QInv.nonneg {D : V → Int} {q : List V} (h : QInv E src D q) {v : V} (hv : D v ≠ -1) :
    0 ≤ D v := by
  obtain ⟨n, hn, _⟩ := h.sound v hv
  omega

theorem qinv_init [DecidableEq V] {D : V → Int} (hD : ∀ v, D v = if v = src then 0 else -1) :
    QInv E src D [src] := by
  have hvis : ∀ v, D v ≠ -1 → v = src := by
    intro v hv
    by_contra hne
    rw [hD v, if_neg hne] at hv
    exact hv rfl
  have h0 : D src = 0 := by rw [hD src, if_pos rfl]
  refine ⟨h0, ?_, ?_, ?_, ?_, ?_⟩
  · intro v hv
    rw [hvis v hv]
    exact ⟨0, by simp [h0], Walk.start⟩
  · intro u hu
    rw [List.mem_singleton] at hu
    rw [hu, h0]; decide
  · exact List.pairwise_singleton _ _
  · intro v hv u hu
    rw [List.mem_singleton] at hu
    rw [hu, hvis v hv, h0]; decide
  · intro v hv hq
    exact absurd (List.mem_singleton.mpr (hvis v hv)) hq

/-- Reaching an unvisited neighbour `w` of the head `p`: it gets `D p + 1` and
goes to the back of the queue. -/
theorem qinv_relax [DecidableEq V] {D D1 : V → Int} {p w : V} {q : List V}
    (h : QInv E src D (p :: q)) (hw : D w = -1) (hpw : E p w)
    (hD1 : ∀ v, D1 v = if v = w then D p + 1 else D v) :
    QInv E src D1 (p :: (q ++ [w])) := by
  have hp : D p ≠ -1 := h.qvis p (List.mem_cons_self _ _)
  have hp0 : 0 ≤ D p := h.nonneg E src hp
  have hold : ∀ v, D v ≠ -1 → D1 v = D v := by
    intro v hv
    have hne : v ≠ w := by rintro rfl; exact hv hw
    rw [hD1 v, if_neg hne]
  have hnew : D1 w = D p + 1 := by rw [hD1 w, if_pos rfl]
  have hvis1 : ∀ v, D1 v ≠ -1 → v = w ∨ D v ≠ -1 := by
    intro v hv
    by_cases hvw : v = w
    · exact Or.inl hvw
    · right; rw [hD1 v, if_neg hvw] at hv; exact hv
  have hqold : ∀ u ∈ p :: q, D1 u = D u ∧ D p ≤ D u := by
    intro u hu
    refine ⟨hold u (h.qvis u hu), ?_⟩
    rcases List.mem_cons.mp hu with rfl | hu'
    · exact le_refl _
    · exact (List.pairwise_cons.mp h.sorted).1 u hu'
  have hmem : ∀ u, u ∈ p :: (q ++ [w]) → u ∈ p :: q ∨ u = w := by
    intro u hu
    rcases List.mem_cons.mp hu with rfl | hu'
    · exact Or.inl (List.mem_cons_self _ _)
    · rcases List.mem_append.mp hu' with h1 | h1
      · exact Or.inl (List.mem_cons_of_mem _ h1)
      · exact Or.inr (List.mem_singleton.mp h1)
  refine ⟨?_, ?_, ?_, ?_, ?_, ?_⟩
  · rw [hold src (by rw [h.src0]; decide), h.src0]
  · intro v hv
    rcases hvis1 v hv with rfl | hv'
    · obtain ⟨n, hn, hwalk⟩ := h.sound p hp
      exact ⟨n + 1, by rw [hnew, hn]; push_cast; ring, Walk.step hwalk hpw⟩
    · rw [hold v hv']; exact h.sound v hv'
  · intro u hu
    rcases hmem u hu with hu' | rfl
    · rw [(hqold u hu').1]; exact h.qvis u hu'
    · rw [hnew]; omega
  · have hs : (p :: q).Pairwise (fun a b => D1 a ≤ D1 b) := by
      refine List.Pairwise.imp_of_mem ?_ h.sorted
      intro a b ha hb hab
      rw [(hqold a ha).1, (hqold b hb).1]; exact hab
    rw [← List.cons_append]
    refine List.pairwise_append.mpr ⟨hs, List.pairwise_singleton _ _, ?_⟩
    intro a ha b hb
    rw [List.mem_singleton] at hb
    rw [hb, hnew, (hqold a ha).1]
    have := h.near a (h.qvis a ha) p (List.mem_cons_self _ _)
    omega
  · intro v hv u hu
    have hu1 : D p ≤ D1 u := by
      rcases hmem u hu with hu' | rfl
      · rw [(hqold u hu').1]; exact (hqold u hu').2
      · rw [hnew]; omega
    rcases hvis1 v hv with rfl | hv'
    · rw [hnew]; omega
    · rw [hold v hv']
      have := h.near v hv' p (List.mem_cons_self _ _)
      omega
  · intro v hv hq x hvx
    have hvw : v ≠ w := by
      rintro rfl
      exact hq (List.mem_cons_of_mem _ (List.mem_append_right _ (List.mem_singleton.mpr rfl)))
    have hv' : D v ≠ -1 := (hvis1 v hv).resolve_left hvw
    have hq' : v ∉ p :: q := by
      intro hin
      rcases List.mem_cons.mp hin with rfl | h2
      · exact hq (List.mem_cons_self _ _)
      · exact hq (List.mem_cons_of_mem _ (List.mem_append_left _ h2))
    obtain ⟨hx1, hx2⟩ := h.closed v hv' hq' x hvx
    rw [hold x hx1, hold v hv']
    exact ⟨hx1, hx2⟩

/-- Once every neighbour of the head `p` is reached, `p` leaves the queue. -/
theorem qinv_pop {D : V → Int} {p : V} {q : List V} (h : QInv E src D (p :: q))
    (hdone : ∀ w, E p w → D w ≠ -1) : QInv E src D q := by
  refine ⟨h.src0, h.sound, ?_, ?_, ?_, ?_⟩
  · intro u hu; exact h.qvis u (List.mem_cons_of_mem _ hu)
  · exact (List.pairwise_cons.mp h.sorted).2
  · intro v hv u hu; exact h.near v hv u (List.mem_cons_of_mem _ hu)
  · intro v hv hq x hvx
    by_cases hvp : v = p
    · subst hvp
      have hx := hdone x hvx
      exact ⟨hx, h.near x hx v (List.mem_cons_self _ _)⟩
    · have hq' : v ∉ p :: q := by
        intro hin
        rcases List.mem_cons.mp hin with h1 | h1
        · exact hvp h1
        · exact hq h1
      exact h.closed v hv hq' x hvx

/-- With an empty queue every node a walk reaches has a distance, and the
distance is at most the length of the walk. -/
theorem qinv_nil_walk {D : V → Int} (h : QInv E src D []) {n : Nat} {v : V}
    (hw : Walk E src n v) : D v ≠ -1 ∧ D v ≤ (n : Int) := by
  induction hw with
  | start => rw [h.src0]; exact ⟨by decide, by simp⟩
  | step _ hvw ih =>
    obtain ⟨h1, h2⟩ := h.closed _ ih.1 (List.not_mem_nil _) _ hvw
    exact ⟨h1, by push_cast; omega⟩

end Generic

/-! ## Counting unreached entries -/

theorem count_set_lt (l : List Int) (i : Nat) (a : Int) (hi : l[i]? = some (-1)) (ha : a ≠ -1) :
    (l.set i a).count (-1) + 1 = l.count (-1) := by
  induction l generalizing i with
  | nil => simp at hi
  | cons x xs ih =>
    cases i with
    | zero =>
      simp only [List.getElem?_cons_zero, Option.some.injEq] at hi
      subst hi
      simp [List.count_cons, ha]
    | succ j =>
      simp only [List.getElem?_cons_succ] at hi
      have := ih j hi
      simp only [List.set_cons_succ, List.count_cons]
      omega

/-! ## Graph search: the run keeps the queue invariant -/

theorem vdist_of_get {dist : List Int} {v x : Int} (h : vec_get dist v = .ok x) :
    vdist dist v = x := by
  simp [vdist, h]

theorem vdist_vis {dist : List Int} {v : Int} (h : vdist dist v ≠ -1) :
    0 ≤ v ∧ v < (dist.length : Int) ∧ vec_get dist v = .ok (vdist dist v) := by
  by_cases hr : v < 0 ∨ (dist.length : Int) ≤ v
  · exfalso; apply h; simp [vdist, vec_get_error hr]
  · have h0 : 0 ≤ v := by omega
    have h1 : v < (dist.length : Int) := by omega
    obtain ⟨a, ha, _⟩ := vec_get_of_lt h0 h1
    exact ⟨h0, h1, by rw [vdist_of_get ha]; exact ha⟩

theorem vdist_set (dist : List Int) {w : Int} (a : Int) (h0 : 0 ≤ w)
    (h1 : w < (dist.length : Int)) (v : Int) :
    vdist (dist.set w.toNat a) v = if v = w then a else vdist dist v := by
  by_cases hvw : v = w
  · subst hvw
    have hlt : v.toNat < (dist.set v.toNat a).length := by rw [List.length_set]; omega
    have hget : vec_get (dist.set v.toNat a) v = .ok a := by
      rw [vec_get_eq_ok]
      refine ⟨h0, ?_⟩
      rw [List.getElem?_eq_getElem hlt, List.getElem_set_self]
    rw [vdist_of_get hget, if_pos rfl]
  · rw [if_neg hvw]
    by_cases hv : v < 0
    · simp [vdist, vec_get, hv]
    · have hne : w.toNat ≠ v.toNat := by omega
      simp [vdist, vec_get, hv, List.getElem?_set_ne hne]

theorem vdist_replicate (n : Nat) (v : Int) : vdist (List.replicate n (-1)) v = -1 := by
  unfold vdist
  cases h : vec_get (List.replicate n (-1 : Int)) v with
  | error e => rfl
  | ok x =>
    rw [vec_get_eq_ok] at h
    have := List.getElem?_mem h.2
    simpa using (List.eq_of_mem_replicate this)

theorem graphStep_iff {g : AdjList} {u v : Int} {nb : List Int} (h : vec_get g u = .ok nb) :
    GraphStep g u v ↔ v ∈ nb := by
  constructor
  · rintro ⟨nb1, h1, h2⟩
    rw [h] at h1
    cases h1
    exact h2
  · intro hv; exact ⟨nb, h, hv⟩

/-- What one pass over a neighbour list keeps and achieves. -/
theorem bfs_nbrs_inv (g : AdjList) (src p : Int) (tos : List Int) :
    ∀ (s : GraphRun),
      QInv (GraphStep g) src (vdist s.dist) (p :: s.q) →
      (∀ w ∈ tos, GraphStep g p w ∧ 0 ≤ w ∧ w < (s.dist.length : Int)) →
      ∃ s1, bfs_nbrs (vdist s.dist p) tos s = .ok s1 ∧
        s1.dist.length = s.dist.length ∧
        QInv (GraphStep g) src (vdist s1.dist) (p :: s1.q) ∧
        (∀ v, vdist s.dist v ≠ -1 → vdist s1.dist v = vdist s.dist v) ∧
        (∀ w ∈ tos, vdist s1.dist w ≠ -1) ∧
        s1.dist.count (-1) + s1.q.length = s.dist.count (-1) + s.q.length := by
  induction tos with
  | nil =>
    intro s h _
    exact ⟨s, rfl, rfl, h, fun _ _ => rfl, fun _ hw => absurd hw (List.not_mem_nil _), rfl⟩
  | cons w tos ih =>
    intro s h htos
    obtain ⟨hE, hw0, hw1⟩ := htos w (List.mem_cons_self _ _)
    have htos' : ∀ w ∈ tos, GraphStep g p w ∧ 0 ≤ w ∧ w < (s.dist.length : Int) :=
      fun x hx => htos x (List.mem_cons_of_mem _ hx)
    obtain ⟨x, hx, hx2⟩ := vec_get_of_lt hw0 hw1
    have hxd : vdist s.dist w = x := vdist_of_get hx
    by_cases hx1 : x = -1
    · -- the neighbour is new
      have hset := vec_set_of_lt s.dist (vdist s.dist p + 1) hw0 hw1
      let s2 : GraphRun :=
        { dist := s.dist.set w.toNat (vdist s.dist p + 1), q := s.q ++ [w] }
      have hstep : bfs_visit (vdist s.dist p) s w = .ok s2 := by
        simp only [bfs_visit, hx, hx1, if_true, hset, s2]
      have hD : ∀ v, vdist s2.dist v = if v = w then vdist s.dist p + 1 else vdist s.dist v :=
        fun v => vdist_set s.dist _ hw0 hw1 v
      have hq2 : QInv (GraphStep g) src (vdist s2.dist) (p :: s2.q) :=
        qinv_relax (GraphStep g) src h (by rw [hxd, hx1]) hE hD
      have hp : vdist s.dist p ≠ -1 := h.qvis p (List.mem_cons_self _ _)
      have hp0 : 0 ≤ vdist s.dist p := h.nonneg _ _ hp
      have hlen2 : s2.dist.length = s.dist.length := by simp [s2]
      have hkeep : ∀ v, vdist s.dist v ≠ -1 → vdist s2.dist v = vdist s.dist v := by
        intro v hv
        have hne : v ≠ w := by rintro rfl; exact hv (by rw [hxd, hx1])
        rw [hD v, if_neg hne]
      have hp2 : vdist s2.dist p = vdist s.dist p := hkeep p hp
      obtain ⟨s1, hrun, hlen, hq1, hmono, hdone, hcount⟩ :=
        ih s2 hq2 (by intro y hy; rw [hlen2]; exact htos' y hy)
      refine ⟨s1, ?_, by rw [hlen, hlen2], hq1, ?_, ?_, ?_⟩
      · simp only [bfs_nbrs, hstep]; rw [← hp2]; exact hrun
      · intro v hv
        rw [hmono v (by rw [hkeep v hv]; exact hv), hkeep v hv]
      · intro y hy
        rcases List.mem_cons.mp hy with rfl | hy'
        · have hw2 : vdist s2.dist y ≠ -1 := by rw [hD y, if_pos rfl]; omega
          rw [hmono y hw2]; exact hw2
        · exact hdone y hy'
      · rw [hcount]
        have hc := count_set_lt s.dist w.toNat (vdist s.dist p + 1)
          (by rw [hx2, hx1]) (by omega)
        simp only [s2, List.length_append, List.length_singleton]
        omega
    · -- the neighbour has a distance already
      have hstep : bfs_visit (vdist s.dist p) s w = .ok s := by
        simp only [bfs_visit, hx, hx1, if_false]
      obtain ⟨s1, hrun, hlen, hq1, hmono, hdone, hcount⟩ := ih s h htos'
      refine ⟨s1, ?_, hlen, hq1, hmono, ?_, hcount⟩
      · simp only [bfs_nbrs, hstep]; exact hrun
      · intro y hy
        rcases List.mem_cons.mp hy with rfl | hy'
        · rw [hmono y (by rw [hxd]; exact hx1), hxd]; exact hx1
        · exact hdone y hy'

/-- The queue loop of `bfs_dist` ends with an empty queue when the budget
covers the unreached entries and the queue. -/
theorem bfs_loop_inv (g : AdjList) (src : Int) (hg : WellFormed g) :
    ∀ (fuel : Nat) (s : GraphRun),
      s.dist.length = g.length →
      QInv (GraphStep g) src (vdist s.dist) s.q →
      s.dist.count (-1) + s.q.length ≤ fuel →
      ∃ s1, bfs_loop g fuel s = .ok s1 ∧ s1.dist.length = g.length ∧
        QInv (GraphStep g) src (vdist s1.dist) [] := by
  intro fuel
  induction fuel with
  | zero =>
    intro s hlen h hm
    have hq : s.q = [] := List.eq_nil_of_length_eq_zero (by omega)
    refine ⟨s, ?_, hlen, by rw [← hq]; exact h⟩
    unfold bfs_loop; rw [hq]
  | succ fuel ih =>
    intro s hlen h hm
    cases hq : s.q with
    | nil =>
      refine ⟨s, ?_, hlen, by rw [← hq]; exact h⟩
      unfold bfs_loop; rw [hq]
    | cons p rest =>
      rw [hq] at h
      obtain ⟨hp0, hp1, hpget⟩ := vdist_vis (h.qvis p (List.mem_cons_self _ _))
      obtain ⟨nb, hnb, hnb2⟩ := vec_get_of_lt hp0 (by rw [← hlen]; exact hp1)
      have hnbmem : nb ∈ g := List.getElem?_mem hnb2
      let s0 : GraphRun := { s with q := rest }
      obtain ⟨s1, hrun, hlen1, hq1, _, hdone, hcount⟩ :=
        bfs_nbrs_inv g src p nb s0 h (by
          intro w hw
          refine ⟨(graphStep_iff hnb).mpr hw, (hg nb hnbmem w hw).1, ?_⟩
          show w < (s.dist.length : Int)
          rw [hlen]; exact (hg nb hnbmem w hw).2)
      have hq2 : QInv (GraphStep g) src (vdist s1.dist) s1.q :=
        qinv_pop _ _ hq1 (fun w hw => hdone w ((graphStep_iff hnb).mp hw))
      have hm1 : s1.dist.count (-1) + s1.q.length ≤ fuel := by
        rw [hcount]
        show s.dist.count (-1) + rest.length ≤ fuel
        rw [hq] at hm
        simp only [List.length_cons] at hm
        omega
      obtain ⟨s2, hrun2, hlen2, hq3⟩ := ih s1 (by rw [hlen1]; exact hlen) hq2 hm1
      refine ⟨s2, ?_, hlen2, hq3⟩
      unfold bfs_loop
      rw [hq]
      simp only [hpget, hnb]
      have hrun' : bfs_nbrs (vdist s.dist p) nb { dist := s.dist, q := rest } = .ok s1 := hrun
      rw [hrun']
      exact hrun2

/-- The run of `bfs_dist` on a well-formed graph from a node of the graph ends
with a distance vector that satisfies the queue invariant for the empty queue. -/
theorem bfs_dist_inv (g : AdjList) (src : Int) (hg : WellFormed g) (h0 : 0 ≤ src)
    (h1 : src < (g.length : Int)) :
    ∃ dist, bfs_dist g src = .ok dist ∧ dist.length = g.length ∧
      QInv (GraphStep g) src (vdist dist) [] := by
  have hlen : (List.replicate g.length (-1 : Int)).length = g.length := List.length_replicate _ _
  have hset := vec_set_of_lt (List.replicate g.length (-1 : Int)) 0 h0 (by rw [hlen]; exact h1)
  let s0 : GraphRun := { dist := (List.replicate g.length (-1 : Int)).set src.toNat 0, q := [src] }
  have hD : ∀ v, vdist s0.dist v = if v = src then 0 else -1 := by
    intro v
    show vdist ((List.replicate g.length (-1 : Int)).set src.toNat 0) v = _
    rw [vdist_set _ _ h0 (by rw [hlen]; exact h1), vdist_replicate]
  have hq0 : QInv (GraphStep g) src (vdist s0.dist) s0.q := qinv_init _ _ hD
  have hcount : s0.dist.count (-1) + s0.q.length ≤ g.length := by
    have hc := count_set_lt (List.replicate g.length (-1 : Int)) src.toNat 0
      (by rw [List.getElem?_replicate]; simp; omega) (by decide)
    rw [List.count_replicate_self] at hc
    show ((List.replicate g.length (-1 : Int)).set src.toNat 0).count (-1) + 1 ≤ g.length
    omega
  obtain ⟨s1, hrun, hlen1, hq1⟩ :=
    bfs_loop_inv g src hg g.length s0 (by simp [s0]) hq0 hcount
  refine ⟨s1.dist, ?_, hlen1, hq1⟩
  simp only [bfs_dist, hset]
  have hrun' : bfs_loop g g.length
      { dist := (List.replicate g.length (-1 : Int)).set src.toNat 0, q := [src] } = .ok s1 := hrun
  rw [hrun']

/-! ## Grid search: the distance matrix -/

theorem vec_get_set_self {α : Type} (l : List α) {w : Int} (a : α) (h0 : 0 ≤ w)
    (h1 : w < (l.length : Int)) : vec_get (l.set w.toNat a) w = .ok a := by
  have hlt : w.toNat < (l.set w.toNat a).length := by rw [List.length_set]; omega
  rw [vec_get_eq_ok]
  exact ⟨h0, by rw [List.getElem?_eq_getElem hlt, List.getElem_set_self]⟩

theorem vec_get_set_ne {α : Type} (l : List α) {v w : Int} (a : α) (h0 : 0 ≤ w) (hne : v ≠ w) :
    vec_get (l.set w.toNat a) v = vec_get l v := by
  by_cases hv : v < 0
  · simp [vec_get, hv]
  · have hne2 : w.toNat ≠ v.toNat := by omega
    simp [vec_get, hv, List.getElem?_set_ne hne2]

theorem unreached_set (dist : List (List Int)) (i : Nat) (row row1 : List Int)
    (hi : dist[i]? = some row) (hc : row1.count (-1) + 1 = row.count (-1)) :
    unreached (dist.set i row1) + 1 = unreached dist := by
  unfold unreached
  induction dist generalizing i with
  | nil => simp at hi
  | cons r rs ih =>
    cases i with
    | zero =>
      simp only [List.getElem?_cons_zero, Option.some.injEq] at hi
      subst hi
      simp only [List.set_cons_zero, List.map_cons, List.sum_cons]
      omega
    | succ j =>
      simp only [List.getElem?_cons_succ] at hi
      have := ih j hi
      simp only [List.set_cons_succ, List.map_cons, List.sum_cons]
      omega

theorem unreached_replicate (H W : Nat) :
    unreached (List.replicate H (List.replicate W (-1 : Int))) = H * W := by
  unfold unreached
  simp [List.map_replicate, List.sum_replicate, List.count_replicate_self]

theorem shape_replicate (H W : Nat) :
    Shape (List.replicate H (List.replicate W (-1 : Int))) H W := by
  refine ⟨List.length_replicate _ _, ?_⟩
  intro row hrow
  rw [List.eq_of_mem_replicate hrow, List.length_replicate]

theorem shape_cell {dist : List (List Int)} {H W : Nat} (hs : Shape dist H W) {p : Point2i}
    (hy0 : 0 ≤ p.y) (hy1 : p.y < (H : Int)) (hx0 : 0 ≤ p.x) (hx1 : p.x < (W : Int)) :
    ∃ row x, dist[p.y.toNat]? = some row ∧ row.length = W ∧ row[p.x.toNat]? = some x ∧
      vec_get dist p.y = .ok row ∧ vec_get row p.x = .ok x ∧ dist_get dist p = .ok x := by
  obtain ⟨row, hrow, hrow2⟩ := vec_get_of_lt hy0 (by rw [hs.1]; exact hy1)
  have hlen : row.length = W := hs.2 row (List.getElem?_mem hrow2)
  obtain ⟨x, hx, hx2⟩ := vec_get_of_lt hx0 (by rw [hlen]; exact hx1)
  exact ⟨row, x, hrow2, hlen, hx2, hrow, hx, by simp [dist_get, hrow, hx]⟩

theorem mdist_of_get {dist : List (List Int)} {p : Point2i} {x : Int}
    (h : dist_get dist p = .ok x) : mdist dist p = x := by
  simp [mdist, h]

theorem mdist_vis {dist : List (List Int)} {p : Point2i} (h : mdist dist p ≠ -1) :
    dist_get dist p = .ok (mdist dist p) := by
  cases hg : dist_get dist p with
  | error e => exfalso; apply h; simp [mdist, hg]
  | ok x => rw [mdist_of_get hg]

theorem dist_get_in {dist : List (List Int)} {H W : Nat} (hs : Shape dist H W) {p : Point2i}
    {x : Int} (h : dist_get dist p = .ok x) :
    0 ≤ p.y ∧ p.y < (H : Int) ∧ 0 ≤ p.x ∧ p.x < (W : Int) := by
  unfold dist_get at h
  cases hrow : vec_get dist p.y with
  | error e => rw [hrow] at h; cases h
  | ok row =>
    rw [hrow] at h
    rw [vec_get_eq_ok] at hrow h
    have hlen : row.length = W := hs.2 row (List.getElem?_mem hrow.2)
    have h1 := (List.getElem?_eq_some.mp hrow.2).1
    have h2 := (List.getElem?_eq_some.mp h.2).1
    rw [hs.1] at h1
    rw [hlen] at h2
    exact ⟨hrow.1, by omega, h.1, by omega⟩

theorem mdist_replicate (H W : Nat) (p : Point2i) :
    mdist (List.replicate H (List.replicate W (-1 : Int))) p = -1 := by
  unfold mdist
  cases h : dist_get (List.replicate H (List.replicate W (-1 : Int))) p with
  | error e => rfl
  | ok x =>
    unfold dist_get at h
    cases hrow : vec_get (List.replicate H (List.replicate W (-1 : Int))) p.y with
    | error e => rw [hrow] at h; cases h
    | ok row =>
      rw [hrow] at h
      rw [vec_get_eq_ok] at hrow h
      have hr := List.eq_of_mem_replicate (List.getElem?_mem hrow.2)
      have hx := List.getElem?_mem h.2
      rw [hr] at hx
      simpa using List.eq_of_mem_replicate hx

/-- Writing one cell of a well-shaped distance matrix. -/
theorem dist_set_in {dist : List (List Int)} {H W : Nat} (hs : Shape dist H W) {p : Point2i}
    (a : Int) (hy0 : 0 ≤ p.y) (hy1 : p.y < (H : Int)) (hx0 : 0 ≤ p.x) (hx1 : p.x < (W : Int)) :
    ∃ dist1, dist_set dist p a = .ok dist1 ∧ Shape dist1 H W ∧
      (∀ v, mdist dist1 v = if v = p then a else mdist dist v) ∧
      (mdist dist p = -1 → a ≠ -1 → unreached dist1 + 1 = unreached dist) := by
  obtain ⟨row, x, hrow2, hlen, hx2, hrow, hx, hget⟩ := shape_cell hs hy0 hy1 hx0 hx1
  have hxl : p.x < (row.length : Int) := by rw [hlen]; exact hx1
  have hyl : p.y < (dist.length : Int) := by rw [hs.1]; exact hy1
  have hset1 := vec_set_of_lt row a hx0 hxl
  have hset2 := vec_set_of_lt dist (row.set p.x.toNat a) hy0 hyl
  refine ⟨dist.set p.y.toNat (row.set p.x.toNat a), ?_, ?_, ?_, ?_⟩
  · simp only [dist_set, hrow, hset1, hset2]
  · refine ⟨by rw [List.length_set]; exact hs.1, ?_⟩
    intro r hr
    rcases List.mem_or_eq_of_mem_set hr with h1 | h1
    · exact hs.2 r h1
    · rw [h1, List.length_set]; exact hlen
  · intro v
    by_cases hvp : v = p
    · subst hvp
      rw [if_pos rfl]
      apply mdist_of_get
      simp only [dist_get, vec_get_set_self dist _ hy0 hyl, vec_get_set_self row a hx0 hxl]
    · rw [if_neg hvp]
      by_cases hy : v.y = p.y
      · have hxne : v.x ≠ p.x := by
          intro hxe; apply hvp
          cases v; cases p; simp_all
        simp only [mdist, dist_get, hy, vec_get_set_self dist _ hy0 hyl, hrow,
          vec_get_set_ne row a hx0 hxne]
      · simp only [mdist, dist_get, vec_get_set_ne dist _ hy0 hy]
  · intro hold ha
    have hxv : x = -1 := by rw [← mdist_of_get hget]; exact hold
    exact unreached_set dist p.y.toNat row _ hrow2
      (count_set_lt row p.x.toNat a (by rw [hx2, hxv]) ha)

/-! ## Grid search: bounds on a rectangular grid -/

theorem rect_in_bounds {α : Type} {g : Grid2D α} (hr : Rectangular g) (x y : Int) :
    in_bounds g x y = .ok true ↔
      0 ≤ y ∧ y < (g.length : Int) ∧ 0 ≤ x ∧ x < (grid_width g : Int) := by
  rw [in_bounds_true_iff]
  constructor
  · rintro ⟨h1, h2, h3, h4⟩
    refine ⟨h1, h2, h3, ?_⟩
    obtain ⟨row, _, hrow⟩ := vec_get_of_lt h1 h2
    have : g.getD y.toNat [] = row := by simp [hrow]
    rw [this, hr row (List.getElem?_mem hrow)] at h4
    exact h4
  · rintro ⟨h1, h2, h3, h4⟩
    refine ⟨h1, h2, h3, ?_⟩
    obtain ⟨row, _, hrow⟩ := vec_get_of_lt h1 h2
    have : g.getD y.toNat [] = row := by simp [hrow]
    rw [this, hr row (List.getElem?_mem hrow)]
    exact h4

theorem in_bounds_cases {α : Type} (g : Grid2D α) (x y : Int) :
    in_bounds g x y = .ok true ∨ in_bounds g x y = .ok false := by
  rw [in_bounds_eq]
  by_cases h : 0 ≤ y ∧ y < (g.length : Int) ∧ 0 ≤ x ∧
      x < (((g.getD y.toNat []).length : Nat) : Int)
  · left; rw [decide_eq_true h]
  · right; rw [decide_eq_false h]

theorem grid_at_in {α : Type} {g : Grid2D α} {p : Point2i}
    (h : in_bounds g p.x p.y = .ok true) : ∃ c, grid_at g p = .ok c := by
  rw [in_bounds_true_iff] at h
  obtain ⟨h1, h2, h3, h4⟩ := h
  obtain ⟨row, hrow, hrow2⟩ := vec_get_of_lt h1 h2
  have : g.getD p.y.toNat [] = row := by simp [hrow2]
  rw [this] at h4
  obtain ⟨c, hc, _⟩ := vec_get_of_lt h3 h4
  exact ⟨c, by simp [grid_at, hrow, hc]⟩

/-! ## Grid search: the run keeps the queue invariant -/

theorem gridStep_in {α : Type} {g : Grid2D α} {passable : α → Bool} {a b : Point2i}
    (h : GridStep g passable a b) : in_bounds g b.x b.y = .ok true := h.2.1

/-- What one pass of the direction loop keeps and achieves. -/
theorem bfs_grid_visit_inv {α : Type} (g : Grid2D α) (passable : α → Bool)
    (hr : Rectangular g) (start p dir : Point2i) (hdir : dir ∈ DIR4) (s : GridRun)
    (hs : Shape s.dist g.length (grid_width g))
    (h : QInv (GridStep g passable) start (mdist s.dist) (p :: s.q)) :
    ∃ s1, bfs_grid_visit g passable p (mdist s.dist p) s dir = .ok s1 ∧
      Shape s1.dist g.length (grid_width g) ∧
      QInv (GridStep g passable) start (mdist s1.dist) (p :: s1.q) ∧
      (∀ v, mdist s.dist v ≠ -1 → mdist s1.dist v = mdist s.dist v) ∧
      (GridStep g passable p ⟨p.x + dir.x, p.y + dir.y⟩ →
        mdist s1.dist ⟨p.x + dir.x, p.y + dir.y⟩ ≠ -1) ∧
      unreached s1.dist + s1.q.length = unreached s.dist + s.q.length ∧
      s1.pushes + unreached s1.dist = s.pushes + unreached s.dist := by
  rcases in_bounds_cases g (p.x + dir.x) (p.y + dir.y) with hin | hin
  · -- the neighbour is a cell of the grid
    obtain ⟨hy0, hy1, hx0, hx1⟩ := (rect_in_bounds hr _ _).mp hin
    obtain ⟨row, x, _, _, _, _, _, hget⟩ :=
      shape_cell (p := ⟨p.x + dir.x, p.y + dir.y⟩) hs hy0 hy1 hx0 hx1
    have hxd : mdist s.dist ⟨p.x + dir.x, p.y + dir.y⟩ = x := mdist_of_get hget
    by_cases hx : x = -1
    · obtain ⟨c, hc⟩ := grid_at_in (p := ⟨p.x + dir.x, p.y + dir.y⟩) hin
      by_cases hpass : passable c = true
      · -- new and passable: it gets its distance and is pushed
        have hp : mdist s.dist p ≠ -1 := h.qvis p (List.mem_cons_self _ _)
        have hp0 : 0 ≤ mdist s.dist p := h.nonneg _ _ hp
        obtain ⟨dist1, hset, hs1, hD, hcount⟩ :=
          dist_set_in (p := ⟨p.x + dir.x, p.y + dir.y⟩) hs (mdist s.dist p + 1) hy0 hy1 hx0 hx1
        have hE : GridStep g passable p ⟨p.x + dir.x, p.y + dir.y⟩ :=
          ⟨⟨dir, hdir, rfl⟩, hin, c, hc, hpass⟩
        have hc1 := hcount (by rw [hxd, hx]) (by omega)
        refine ⟨{ dist := dist1, q := s.q ++ [⟨p.x + dir.x, p.y + dir.y⟩],
                  probes := s.probes + 1, pushes := s.pushes + 1 }, ?_, hs1, ?_, ?_, ?_, ?_, ?_⟩
        · simp only [bfs_grid_visit, hin, hget, hx, hc, hpass, hset]
          simp
        · exact qinv_relax (GridStep g passable) start h (by rw [hxd, hx]) hE hD
        · intro v hv
          have hne : v ≠ ⟨p.x + dir.x, p.y + dir.y⟩ := by
            rintro rfl; exact hv (by rw [hxd, hx])
          show mdist dist1 v = _
          rw [hD v, if_neg hne]
        · intro _
          show mdist dist1 _ ≠ -1
          rw [hD _, if_pos rfl]; omega
        · show unreached dist1 + (s.q ++ [_]).length = _
          rw [List.length_append, List.length_singleton]; omega
        · show s.pushes + 1 + unreached dist1 = _
          omega
      · -- new but not passable: only the probe is counted
        refine ⟨{ s with probes := s.probes + 1 }, ?_, hs, h, fun _ _ => rfl, ?_, rfl, rfl⟩
        · simp only [bfs_grid_visit, hin, hget, hx, hc, hpass]
          simp
        · rintro ⟨_, _, c1, hc1, hp1⟩
          rw [hc] at hc1
          cases hc1
          exact absurd hp1 hpass
    · -- the neighbour has a distance already
      refine ⟨s, ?_, hs, h, fun _ _ => rfl, ?_, rfl, rfl⟩
      · simp only [bfs_grid_visit, hin, hget]
        simp [hx]
      · intro _; rw [hxd]; exact hx
  · -- the neighbour is outside the grid
    refine ⟨s, ?_, hs, h, fun _ _ => rfl, ?_, rfl, rfl⟩
    · simp only [bfs_grid_visit, hin]
    · intro hE
      have := gridStep_in hE
      rw [hin] at this
      cases this

/-- What the direction loop keeps and achieves. -/
theorem bfs_grid_dirs_inv {α : Type} (g : Grid2D α) (passable : α → Bool)
    (hr : Rectangular g) (start p : Point2i) (dirs : List Point2i) :
    (∀ dir ∈ dirs, dir ∈ DIR4) →
    ∀ (s : GridRun), Shape s.dist g.length (grid_width g) →
      QInv (GridStep g passable) start (mdist s.dist) (p :: s.q) →
      ∃ s1, bfs_grid_dirs g passable p (mdist s.dist p) dirs s = .ok s1 ∧
        Shape s1.dist g.length (grid_width g) ∧
        QInv (GridStep g passable) start (mdist s1.dist) (p :: s1.q) ∧
        (∀ v, mdist s.dist v ≠ -1 → mdist s1.dist v = mdist s.dist v) ∧
        (∀ dir ∈ dirs, GridStep g passable p ⟨p.x + dir.x, p.y + dir.y⟩ →
          mdist s1.dist ⟨p.x + dir.x, p.y + dir.y⟩ ≠ -1) ∧
        unreached s1.dist + s1.q.length = unreached s.dist + s.q.length ∧
        s1.pushes + unreached s1.dist = s.pushes + unreached s.dist := by
  induction dirs with
  | nil =>
    intro _ s hs h
    exact ⟨s, rfl, hs, h, fun _ _ => rfl, fun _ hd => absurd hd (List.not_mem_nil _), rfl, rfl⟩
  | cons dir dirs ih =>
    intro hd s hs h
    obtain ⟨s2, hstep, hs2, hq2, hmono2, hdone2, hc2, hp2⟩ :=
      bfs_grid_visit_inv g passable hr start p dir (hd dir (List.mem_cons_self _ _)) s hs h
    have hpvis : mdist s.dist p ≠ -1 := h.qvis p (List.mem_cons_self _ _)
    obtain ⟨s1, hrun, hs1, hq1, hmono1, hdone1, hc1, hp1⟩ :=
      ih (fun d hdm => hd d (List.mem_cons_of_mem _ hdm)) s2 hs2 hq2
    refine ⟨s1, ?_, hs1, hq1, ?_, ?_, by rw [hc1, hc2], by rw [hp1, hp2]⟩
    · simp only [bfs_grid_dirs, hstep]
      rw [← hmono2 p hpvis]; exact hrun
    · intro v hv
      rw [hmono1 v (by rw [hmono2 v hv]; exact hv), hmono2 v hv]
    · intro d hdm hE
      rcases List.mem_cons.mp hdm with rfl | hdm'
      · have h2 := hdone2 hE
        rw [hmono1 _ h2]; exact h2
      · exact hdone1 d hdm' hE

/-- The queue loop of `bfs_dist_grid` ends with an empty queue when the budget
covers the unreached cells and the queue. -/
theorem bfs_grid_loop_inv {α : Type} (g : Grid2D α) (passable : α → Bool)
    (hr : Rectangular g) (start : Point2i) :
    ∀ (fuel : Nat) (s : GridRun), Shape s.dist g.length (grid_width g) →
      QInv (GridStep g passable) start (mdist s.dist) s.q →
      unreached s.dist + s.q.length ≤ fuel →
      ∃ s1, bfs_grid_loop g passable fuel s = .ok s1 ∧
        Shape s1.dist g.length (grid_width g) ∧
        QInv (GridStep g passable) start (mdist s1.dist) [] ∧ s1.q = [] ∧
        s1.pushes + unreached s1.dist = s.pushes + unreached s.dist := by
  intro fuel
  induction fuel with
  | zero =>
    intro s hs h hm
    have hq : s.q = [] := List.eq_nil_of_length_eq_zero (by omega)
    refine ⟨s, ?_, hs, by rw [← hq]; exact h, hq, rfl⟩
    unfold bfs_grid_loop; rw [hq]
  | succ fuel ih =>
    intro s hs h hm
    cases hq : s.q with
    | nil =>
      refine ⟨s, ?_, hs, by rw [← hq]; exact h, hq, rfl⟩
      unfold bfs_grid_loop; rw [hq]
    | cons p rest =>
      rw [hq] at h
      have hpget := mdist_vis (h.qvis p (List.mem_cons_self _ _))
      obtain ⟨s1, hrun, hs1, hq1, _, hdone, hc1, hp1⟩ :=
        bfs_grid_dirs_inv g passable hr start p DIR4 (fun _ hd => hd) { s with q := rest } hs h
      have hq2 : QInv (GridStep g passable) start (mdist s1.dist) s1.q := by
        refine qinv_pop _ _ hq1 ?_
        rintro w hw
        obtain ⟨⟨dir, hdir, rfl⟩, _⟩ := id hw
        exact hdone dir hdir hw
      have hm1 : unreached s1.dist + s1.q.length ≤ fuel := by
        rw [hc1]
        show unreached s.dist + rest.length ≤ fuel
        rw [hq] at hm
        simp only [List.length_cons] at hm
        omega
      obtain ⟨s2, hrun2, hs2, hq3, hnil, hp2⟩ := ih s1 hs1 hq2 hm1
      refine ⟨s2, ?_, hs2, hq3, hnil, by rw [hp2, hp1]⟩
      unfold bfs_grid_loop
      rw [hq]
      simp only [hpget]
      have hrun' : bfs_grid_dirs g passable p (mdist s.dist p) DIR4
          { dist := s.dist, q := rest, probes := s.probes, pushes := s.pushes } = .ok s1 := hrun
      rw [hrun']
      exact hrun2

/-- The run of `bfs_dist_grid` on a rectangular grid from a cell of the grid
ends with an empty queue and a distance matrix of the shape of the grid that
satisfies the queue invariant. -/
theorem bfs_grid_run_inv {α : Type} (g : Grid2D α) (start : Point2i) (passable : α → Bool)
    (hr : Rectangular g) (hin : in_bounds g start.x start.y = .ok true) :
    ∃ s, bfs_grid_run g start passable = .ok s ∧
      Shape s.dist g.length (grid_width g) ∧
      QInv (GridStep g passable) start (mdist s.dist) [] ∧ s.q = [] ∧
      s.pushes + unreached s.dist = g.length * grid_width g := by
  obtain ⟨hy0, hy1, hx0, hx1⟩ := (rect_in_bounds hr _ _).mp hin
  obtain ⟨dist0, hset, hs0, hD, hcount⟩ :=
    dist_set_in (shape_replicate g.length (grid_width g)) (p := start) 0 hy0 hy1 hx0 hx1
  have hc := hcount (mdist_replicate _ _ _) (by decide)
  rw [unreached_replicate] at hc
  have hD0 : ∀ v, mdist dist0 v = if v = start then 0 else -1 := by
    intro v; rw [hD v, mdist_replicate]
  obtain ⟨s1, hrun, hs1, hq1, hnil, hp1⟩ :=
    bfs_grid_loop_inv g passable hr start (g.length * grid_width g)
      { dist := dist0, q := [start], probes := 0, pushes := 1 } hs0
      (qinv_init _ _ hD0) (by show unreached dist0 + 1 ≤ _; omega)
  refine ⟨s1, ?_, hs1, hq1, hnil, ?_⟩
  · simp only [bfs_grid_run, hin, hset]
    exact hrun
  · rw [hp1]; show 1 + unreached dist0 = _; omega

/-! ## Building graphs: which edges the result has -/

theorem push_edge_spec {g g1 : AdjList} {u v : Int} {nb : List Int}
    (hget : vec_get g u = .ok nb) (hset : vec_set g u (nb ++ [v]) = .ok g1) :
    g1.length = g.length ∧
      ∀ a b, GraphStep g1 a b ↔ GraphStep g a b ∨ (a = u ∧ b = v) := by
  obtain ⟨h0, h1, rfl⟩ := vec_set_eq_ok.mp hset
  have h1' : u < (g.length : Int) := by omega
  refine ⟨List.length_set _ _ _, ?_⟩
  intro a b
  by_cases hau : a = u
  · subst hau
    rw [graphStep_iff (vec_get_set_self g (nb ++ [v]) h0 h1'), graphStep_iff hget]
    simp [List.mem_append]
  · have hsame : vec_get (g.set u.toNat (nb ++ [v])) a = vec_get g a :=
      vec_get_set_ne g _ h0 hau
    unfold GraphStep
    rw [hsame]
    constructor
    · intro h; exact Or.inl h
    · rintro (h | ⟨h, _⟩)
      · exact h
      · exact absurd h hau

theorem add_undirected_edge_spec {g g2 : AdjList} {u v : Int}
    (h : add_undirected_edge g u v = .ok g2) :
    g2.length = g.length ∧
      ∀ a b, GraphStep g2 a b ↔ GraphStep g a b ∨ (a = u ∧ b = v) ∨ (a = v ∧ b = u) := by
  unfold add_undirected_edge at h
  cases hnbu : vec_get g u with
  | error e => simp only [hnbu] at h; cases h
  | ok nbu =>
    simp only [hnbu] at h
    cases hg1 : vec_set g u (nbu ++ [v]) with
    | error e => simp only [hg1] at h; cases h
    | ok g1 =>
      simp only [hg1] at h
      cases hnbv : vec_get g1 v with
      | error e => simp only [hnbv] at h; cases h
      | ok nbv =>
        simp only [hnbv] at h
        obtain ⟨hl1, he1⟩ := push_edge_spec hnbu hg1
        obtain ⟨hl2, he2⟩ := push_edge_spec hnbv h
        refine ⟨by rw [hl2, hl1], ?_⟩
        intro a b
        rw [he2, he1, or_assoc]

theorem add_undirected_edges_spec (es : List (Int × Int)) :
    ∀ {g G : AdjList}, add_undirected_edges g es = .ok G →
      G.length = g.length ∧
        ∀ a b, GraphStep G a b ↔ GraphStep g a b ∨ (a, b) ∈ es ∨ (b, a) ∈ es := by
  induction es with
  | nil =>
    intro g G h
    simp only [add_undirected_edges, Except.ok.injEq] at h
    subst h
    exact ⟨rfl, fun a b => by simp⟩
  | cons e es ih =>
    intro g G h
    unfold add_undirected_edges at h
    cases hg1 : add_undirected_edge g e.1 e.2 with
    | error x => simp only [hg1] at h; cases h
    | ok g1 =>
      simp only [hg1] at h
      obtain ⟨hl1, he1⟩ := add_undirected_edge_spec hg1
      obtain ⟨hl2, he2⟩ := ih h
      refine ⟨by rw [hl2, hl1], ?_⟩
      intro a b
      rw [he2, he1]
      obtain ⟨e1, e2⟩ := e
      simp only [List.mem_cons, Prod.mk.injEq]
      tauto

theorem make_adj_list_spec {n : Int} {g0 : AdjList} (h : make_adj_list n = .ok g0) :
    0 ≤ n ∧ g0.length = n.toNat ∧ ∀ a b, ¬ GraphStep g0 a b := by
  unfold make_adj_list at h
  by_cases hn : n < 0
  · simp [hn] at h
  · simp only [hn, if_false, Except.ok.injEq] at h
    subst h
    refine ⟨by omega, List.length_replicate _ _, ?_⟩
    rintro a b ⟨nb, hnb, hb⟩
    rw [vec_get_eq_ok] at hnb
    rw [List.eq_of_mem_replicate (List.getElem?_mem hnb.2)] at hb
    exact absurd hb (List.not_mem_nil _)

/-- The edges of a graph of the grid are the pairs of adjacent open cells. -/
theorem gridGraph_edges {α : Type} {g : Grid2D α} {passable : α → Bool} {G : AdjList}
    (h : GridGraph g passable G) :
    G.length = g.length * grid_width g ∧
      ∀ u v : Int, GraphStep G u v ↔
        ∃ a b, CellEdge g passable a b ∧ u = cell_id (grid_width g) a ∧
          v = cell_id (grid_width g) b := by
  obtain ⟨g0, es, h0, hes, hiff⟩ := h
  obtain ⟨_, hl0, hno⟩ := make_adj_list_spec h0
  obtain ⟨hl, he⟩ := add_undirected_edges_spec es hes
  refine ⟨?_, ?_⟩
  · rw [hl, hl0]
    have : ((g.length : Int) * (grid_width g : Int)) = ((g.length * grid_width g : Nat) : Int) := by
      push_cast; rfl
    rw [this, Int.toNat_ofNat]
  · intro u v
    rw [he, ← hiff]
    constructor
    · rintro (h1 | h1)
      · exact absurd h1 (hno u v)
      · exact h1
    · intro h1; exact Or.inr h1

/-! ## Cell ids -/

theorem cell_id_range {H W : Nat} {c : Point2i} (hy0 : 0 ≤ c.y) (hy1 : c.y < (H : Int))
    (hx0 : 0 ≤ c.x) (hx1 : c.x < (W : Int)) :
    0 ≤ cell_id W c ∧ cell_id W c < ((H * W : Nat) : Int) := by
  unfold cell_id
  have hW : (0 : Int) ≤ W := Int.ofNat_nonneg W
  have h1 : 0 ≤ c.y * (W : Int) := Int.mul_nonneg hy0 hW
  have h2 : (c.y + 1) * (W : Int) ≤ (H : Int) * (W : Int) :=
    Int.mul_le_mul_of_nonneg_right (by omega) hW
  have h3 : (c.y + 1) * (W : Int) = c.y * (W : Int) + W := by ring
  push_cast
  omega

theorem cell_id_inj {W : Nat} {a b : Point2i} (ha0 : 0 ≤ a.x) (ha1 : a.x < (W : Int))
    (hb0 : 0 ≤ b.x) (hb1 : b.x < (W : Int)) (h : cell_id W a = cell_id W b) : a = b := by
  unfold cell_id at h
  have hW : (0 : Int) ≤ W := Int.ofNat_nonneg W
  have hy : a.y = b.y := by
    rcases lt_trichotomy a.y b.y with hlt | heq | hgt
    · exfalso
      have h2 : (a.y + 1) * (W : Int) ≤ b.y * (W : Int) :=
        Int.mul_le_mul_of_nonneg_right (by omega) hW
      have h3 : (a.y + 1) * (W : Int) = a.y * (W : Int) + W := by ring
      omega
    · exact heq
    · exfalso
      have h2 : (b.y + 1) * (W : Int) ≤ a.y * (W : Int) :=
        Int.mul_le_mul_of_nonneg_right (by omega) hW
      have h3 : (b.y + 1) * (W : Int) = b.y * (W : Int) + W := by ring
      omega
  have hx : a.x = b.x := by rw [hy] at h; omega
  cases a; cases b; simp_all

/-! ## Grid paths and paths in the graph of the grid -/

theorem openCell_range {α : Type} {g : Grid2D α} {passable : α → Bool} (hr : Rectangular g)
    {c : Point2i} (h : OpenCell g passable c) :
    0 ≤ c.y ∧ c.y < (g.length : Int) ∧ 0 ≤ c.x ∧ c.x < (grid_width g : Int) :=
  (rect_in_bounds hr _ _).mp h.1

theorem grid_walk_to_graph {α : Type} {g : Grid2D α} {passable : α → Bool} {G : AdjList}
    {start : Point2i} (hopen : OpenCell g passable start)
    (hG : ∀ u v : Int, GraphStep G u v ↔
      ∃ a b, CellEdge g passable a b ∧ u = cell_id (grid_width g) a ∧
        v = cell_id (grid_width g) b)
    {n : Nat} {c : Point2i} (hw : Walk (GridStep g passable) start n c) :
    OpenCell g passable c ∧
      Walk (GraphStep G) (cell_id (grid_width g) start) n (cell_id (grid_width g) c) := by
  induction hw with
  | start => exact ⟨hopen, Walk.start⟩
  | step _ hvw ih =>
    obtain ⟨hadj, hw2⟩ := hvw
    have hopen2 : OpenCell g passable _ := hw2
    refine ⟨hopen2, Walk.step ih.2 ?_⟩
    rw [hG]
    exact ⟨_, _, ⟨hadj, ih.1, hopen2⟩, rfl, rfl⟩

theorem graph_walk_to_grid {α : Type} {g : Grid2D α} {passable : α → Bool} {G : AdjList}
    {start : Point2i} (hr : Rectangular g) (hopen : OpenCell g passable start)
    (hG : ∀ u v : Int, GraphStep G u v ↔
      ∃ a b, CellEdge g passable a b ∧ u = cell_id (grid_width g) a ∧
        v = cell_id (grid_width g) b)
    {n : Nat} {u : Int} (hw : Walk (GraphStep G) (cell_id (grid_width g) start) n u) :
    ∃ c, OpenCell g passable c ∧ u = cell_id (grid_width g) c ∧
      Walk (GridStep g passable) start n c := by
  induction hw with
  | start => exact ⟨start, hopen, rfl, Walk.start⟩
  | step _ hvw ih =>
    obtain ⟨c, hc, hv, hwalk⟩ := ih
    obtain ⟨a, b, ⟨hadj, ha, hb⟩, hva, hwb⟩ := (hG _ _).mp hvw
    obtain ⟨_, _, hax0, hax1⟩ := openCell_range hr ha
    obtain ⟨_, _, hcx0, hcx1⟩ := openCell_range hr hc
    have hac : a = c := cell_id_inj hax0 hax1 hcx0 hcx1 (by rw [← hva, ← hv])
    subst hac
    exact ⟨b, hb, hwb, Walk.step hwalk ⟨hadj, hb⟩⟩

theorem gridGraph_wellFormed {α : Type} {g : Grid2D α} {passable : α → Bool} {G : AdjList}
    (hr : Rectangular g) (h : GridGraph g passable G) : WellFormed G := by
  obtain ⟨hlen, hG⟩ := gridGraph_edges h
  intro nb hnb v hv
  obtain ⟨i, hi⟩ := List.mem_iff_getElem?.mp hnb
  have hstep : GraphStep G (i : Int) v :=
    ⟨nb, vec_get_eq_ok.mpr ⟨Int.ofNat_nonneg i, by simpa using hi⟩, hv⟩
  obtain ⟨a, b, ⟨_, _, hb⟩, _, hvb⟩ := (hG _ _).mp hstep
  obtain ⟨hy0, hy1, hx0, hx1⟩ := openCell_range hr hb
  rw [hvb, hlen]
  exact cell_id_range hy0 hy1 hx0 hx1

/-! ## One-row grids of two cells -/

theorem one_row_cells {c0 c1 : Char} {p : Point2i}
    (h : in_bounds [[c0, c1]] p.x p.y = .ok true) : p = ⟨0, 0⟩ ∨ p = ⟨1, 0⟩ := by
  rw [in_bounds_true_iff] at h
  obtain ⟨h1, h2, h3, h4⟩ := h
  simp only [List.length_cons, List.length_nil] at h2
  have hy : p.y = 0 := by omega
  rw [hy] at h4
  simp at h4
  cases p with
  | mk x y =>
    simp only at hy h3 h4
    simp only [Point2i.mk.injEq]
    omega

theorem one_row_edges {c0 c1 : Char} {passable : Char → Bool} {a b : Point2i}
    (h : CellEdge [[c0, c1]] passable a b) :
    (a = ⟨0, 0⟩ ∧ b = ⟨1, 0⟩) ∨ (a = ⟨1, 0⟩ ∧ b = ⟨0, 0⟩) := by
  obtain ⟨⟨dir, hdir, hb⟩, ha, hb2⟩ := h
  have hca := one_row_cells ha.1
  have hcb := one_row_cells hb2.1
  cases a with
  | mk ax ay =>
    cases b with
    | mk bx b_y =>
      simp only [Point2i.mk.injEq] at hca hcb hb ⊢
      simp only [DIR4, List.mem_cons, List.mem_singleton, List.not_mem_nil, or_false] at hdir
      rcases hdir with rfl | rfl | rfl | rfl <;> simp only at hb <;> omega

theorem wall_grid_graph : GridGraph wall_grid not_wall [[], []] := by
  refine ⟨[[], []], [], by decide, rfl, ?_⟩
  intro u v
  constructor
  · rintro (h | h) <;> exact absurd h (List.not_mem_nil _)
  · rintro ⟨a, b, hab, _, _⟩
    exfalso
    have hclosed : ¬ OpenCell wall_grid not_wall ⟨0, 0⟩ := by
      rintro ⟨_, c, hc, hp⟩
      have h0 : grid_at wall_grid ⟨0, 0⟩ = .ok '#' := by decide
      rw [h0] at hc
      cases hc
      exact absurd hp (by decide)
    rcases one_row_edges hab with ⟨rfl, _⟩ | ⟨_, rfl⟩
    · exact hclosed hab.2.1
    · exact hclosed hab.2.2

theorem free_grid_graph : GridGraph free_grid not_wall [[1], [0]] := by
  refine ⟨[[], []], [(0, 1)], by decide, by decide, ?_⟩
  intro u v
  have hopen0 : OpenCell free_grid not_wall ⟨0, 0⟩ := ⟨by decide, '.', by decide, by decide⟩
  have hopen1 : OpenCell free_grid not_wall ⟨1, 0⟩ := ⟨by decide, '.', by decide, by decide⟩
  constructor
  · intro h
    simp only [List.mem_singleton, Prod.mk.injEq] at h
    rcases h with ⟨rfl, rfl⟩ | ⟨rfl, rfl⟩
    · exact ⟨⟨0, 0⟩, ⟨1, 0⟩, ⟨⟨⟨1, 0⟩, by decide, by decide⟩, hopen0, hopen1⟩,
        by decide, by decide⟩
    · exact ⟨⟨1, 0⟩, ⟨0, 0⟩, ⟨⟨⟨-1, 0⟩, by decide, by decide⟩, hopen1, hopen0⟩,
        by decide, by decide⟩
  · rintro ⟨a, b, hab, rfl, rfl⟩
    simp only [List.mem_singleton, Prod.mk.injEq]
    rcases one_row_edges hab with ⟨rfl, rfl⟩ | ⟨rfl, rfl⟩
    · left; exact ⟨by decide, by decide⟩
    · right; exact ⟨by decide, by decide⟩

/-! ## Rectangular grids: shape of the result and the entry of the start -/

/-- On a rectangular grid the result of `bfs_dist_grid` has the row shape of
the grid, wherever the start lies. -/
theorem bfs_dist_grid_rect_shape {α : Type} (g : Grid2D α) (start : Point2i)
    (passable : α → Bool) (hr : Rectangular g) :
    ∃ dist, bfs_dist_grid g start passable = .ok dist ∧
      dist.map List.length = g.map List.length := by
  have hshape : ∀ dist : List (List Int), Shape dist g.length (grid_width g) →
      dist.map List.length = g.map List.length := by
    intro dist hs
    apply List.ext_getElem
    · rw [List.length_map, List.length_map, hs.1]
    · intro i h1 h2
      rw [List.getElem_map, List.getElem_map, hs.2 _ (List.getElem_mem _),
        hr _ (List.getElem_mem _)]
  rcases in_bounds_cases g start.x start.y with hin | hout
  · obtain ⟨s, hrun, hs, _⟩ := bfs_grid_run_inv g start passable hr hin
    exact ⟨s.dist, by simp [bfs_dist_grid, hrun], hshape _ hs⟩
  · refine ⟨List.replicate g.length (List.replicate (grid_width g) (-1)), ?_,
      hshape _ (shape_replicate _ _)⟩
    simp only [bfs_dist_grid, bfs_grid_run, hout]

/-- On a rectangular grid the result of `bfs_dist_grid` holds 0 at the start
exactly when the start is in bounds. -/
theorem bfs_dist_grid_rect_start {α : Type} (g : Grid2D α) (start : Point2i)
    (passable : α → Bool) (hr : Rectangular g) :
    ∃ dist, bfs_dist_grid g start passable = .ok dist ∧
      (dist_get dist start = .ok 0 ↔ in_bounds g start.x start.y = .ok true) := by
  rcases in_bounds_cases g start.x start.y with hin | hout
  · obtain ⟨s, hrun, _, hq, _⟩ := bfs_grid_run_inv g start passable hr hin
    refine ⟨s.dist, by simp [bfs_dist_grid, hrun], ?_⟩
    have h0 := @mdist_vis s.dist start (by rw [hq.src0]; decide)
    rw [hq.src0] at h0
    exact ⟨fun _ => hin, fun _ => h0⟩
  · refine ⟨List.replicate g.length (List.replicate (grid_width g) (-1)), ?_, ?_⟩
    · simp only [bfs_dist_grid, bfs_grid_run, hout]
    · constructor
      · intro h
        have := mdist_of_get h
        rw [mdist_replicate] at this
        exact absurd this (by decide)
      · intro h
        rw [hout] at h
        cases h

/-! ## Edge insertion: frame facts -/

theorem add_directed_edge_spec {g g1 : AdjList} {u v : Int}
    (h : add_directed_edge g u v = .ok g1) :
    g1.length = g.length ∧
      ∀ a b, GraphStep g1 a b ↔ GraphStep g a b ∨ (a = u ∧ b = v) := by
  unfold add_directed_edge at h
  cases hnb : vec_get g u with
  | error e => simp only [hnb] at h; cases h
  | ok nb =>
    simp only [hnb] at h
    exact push_edge_spec hnb h

theorem add_directed_edge_ok (g : AdjList) {u : Int} (v : Int) (h0 : 0 ≤ u)
    (h1 : u < (g.length : Int)) :
    ∃ nb, vec_get g u = .ok nb ∧
      add_directed_edge g u v = .ok (g.set u.toNat (nb ++ [v])) := by
  obtain ⟨nb, hnb, _⟩ := vec_get_of_lt h0 h1
  refine ⟨nb, hnb, ?_⟩
  simp only [add_directed_edge, hnb]
  exact vec_set_of_lt g _ h0 h1

theorem add_undirected_edge_eq (g : AdjList) (u v : Int) :
    add_undirected_edge g u v =
      match add_directed_edge g u v with
      | .ok g1 => add_directed_edge g1 v u
      | .error e => .error e := by
  unfold add_undirected_edge add_directed_edge
  cases vec_get g u with
  | error e => rfl
  | ok nbu =>
    simp only
    cases vec_set g u (nbu ++ [v]) with
    | error e => rfl
    | ok g1 =>
      simp only
      cases vec_get g1 v with
      | error e => rfl
      | ok nbv => rfl

theorem wellFormed_iff_steps (g : AdjList) :
    WellFormed g ↔ ∀ a b, GraphStep g a b → 0 ≤ b ∧ b < (g.length : Int) := by
  constructor
  · rintro h a b ⟨nb, hnb, hb⟩
    exact h nb (List.getElem?_mem (vec_get_eq_ok.mp hnb).2) b hb
  · intro h nb hnb v hv
    obtain ⟨i, hi⟩ := List.mem_iff_getElem?.mp hnb
    exact h (i : Int) v ⟨nb, vec_get_eq_ok.mpr ⟨Int.ofNat_nonneg i, by simpa using hi⟩, hv⟩

theorem apply_call_spec {g g1 : AdjList} {c : EdgeCall} (hg : WellFormed g)
    (hc : c.InRange g.length) (h : apply_call g c = .ok g1) :
    g1.length = g.length ∧ WellFormed g1 := by
  rw [wellFormed_iff_steps] at hg
  cases c with
  | directed u v =>
    obtain ⟨hl, he⟩ := add_directed_edge_spec h
    refine ⟨hl, (wellFormed_iff_steps g1).mpr ?_⟩
    intro a b hab
    rw [hl]
    rcases (he a b).mp hab with h1 | ⟨_, rfl⟩
    · exact hg a b h1
    · exact hc.2
  | undirected u v =>
    obtain ⟨hl, he⟩ := add_undirected_edge_spec h
    refine ⟨hl, (wellFormed_iff_steps g1).mpr ?_⟩
    intro a b hab
    rw [hl]
    rcases (he a b).mp hab with h1 | ⟨_, rfl⟩ | ⟨_, rfl⟩
    · exact hg a b h1
    · exact hc.2
    · exact hc.1

theorem add_undirected_edge_ok (g : AdjList) {u v : Int} (hu0 : 0 ≤ u)
    (hu1 : u < (g.length : Int)) (hv0 : 0 ≤ v) (hv1 : v < (g.length : Int)) :
    ∃ g2, add_undirected_edge g u v = .ok g2 := by
  obtain ⟨nb, _, h1⟩ := add_directed_edge_ok g v hu0 hu1
  obtain ⟨nb2, _, h2⟩ := add_directed_edge_ok (g.set u.toNat (nb ++ [v])) u hv0
    (by rw [List.length_set]; exact hv1)
  exact ⟨_, by rw [add_undirected_edge_eq, h1]; exact h2⟩

theorem apply_call_ok (g : AdjList) {c : EdgeCall} (hc : c.InRange g.length) :
    ∃ g1, apply_call g c = .ok g1 := by
  cases c with
  | directed u v =>
    obtain ⟨nb, _, h1⟩ := add_directed_edge_ok g v hc.1.1 hc.1.2
    exact ⟨_, h1⟩
  | undirected u v => exact add_undirected_edge_ok g hc.1.1 hc.1.2 hc.2.1 hc.2.2

theorem apply_calls_spec (calls : List EdgeCall) :
    ∀ (g : AdjList), WellFormed g → (∀ c ∈ calls, c.InRange g.length) →
      ∃ g1, apply_calls g calls = .ok g1 ∧ g1.length = g.length ∧ WellFormed g1 := by
  induction calls with
  | nil => intro g hg _; exact ⟨g, rfl, rfl, hg⟩
  | cons c cs ih =>
    intro g hg hcs
    obtain ⟨g1, h1⟩ := apply_call_ok g (hcs c (List.mem_cons_self _ _))
    obtain ⟨hl1, hw1⟩ := apply_call_spec hg (hcs c (List.mem_cons_self _ _)) h1
    obtain ⟨g2, h2, hl2, hw2⟩ := ih g1 hw1
      (by intro x hx; rw [hl1]; exact hcs x (List.mem_cons_of_mem _ hx))
    exact ⟨g2, by simp only [apply_calls, h1]; exact h2, by rw [hl2, hl1], hw2⟩

/-! ## Graph search depends on the edge relation only -/

theorem walk_mono {V : Type} {E E1 : V → V → Prop} {src : V} (h : ∀ a b, E a b → E1 a b)
    {n : Nat} {v : V} (hw : Walk E src n v) : Walk E1 src n v := by
  induction hw with
  | start => exact Walk.start
  | step _ hvw ih => exact Walk.step ih (h _ _ hvw)

theorem qinv_nil_agree {V : Type} {E E1 : V → V → Prop} {src : V} {D D1 : V → Int}
    (hE : ∀ a b, E a b ↔ E1 a b) (h : QInv E src D []) (h1 : QInv E1 src D1 []) (v : V) :
    D v = D1 v := by
  by_cases hv : D v = -1
  · by_contra hne
    have hv1 : D1 v ≠ -1 := by rw [← hv]; exact fun e => hne e.symm
    obtain ⟨n, _, hw⟩ := h1.sound v hv1
    exact (qinv_nil_walk _ _ h (walk_mono (fun a b => (hE a b).mpr) hw)).1 hv
  · obtain ⟨n, hn, hw⟩ := h.sound v hv
    obtain ⟨hv1, hle1⟩ := qinv_nil_walk _ _ h1 (walk_mono (fun a b => (hE a b).mp) hw)
    obtain ⟨m, hm, hw1⟩ := h1.sound v hv1
    have hle := (qinv_nil_walk _ _ h (walk_mono (fun a b => (hE a b).mpr) hw1)).2
    omega

theorem vdist_ext {d1 d2 : List Int} (hlen : d1.length = d2.length)
    (h : ∀ v, vdist d1 v = vdist d2 v) : d1 = d2 := by
  apply List.ext_getElem hlen
  intro i hi1 hi2
  have e1 : vec_get d1 (i : Int) = .ok d1[i] :=
    vec_get_eq_ok.mpr ⟨Int.ofNat_nonneg i, by simp⟩
  have e2 : vec_get d2 (i : Int) = .ok d2[i] :=
    vec_get_eq_ok.mpr ⟨Int.ofNat_nonneg i, by simp⟩
  rw [← vdist_of_get e1, ← vdist_of_get e2]
  exact h _

/-- Two well-formed graphs with the same nodes and the same edge relation have
the same distances. -/
theorem bfs_dist_congr {g g1 : AdjList} {src : Int} (hg : WellFormed g) (hg1 : WellFormed g1)
    (hlen : g1.length = g.length) (hE : ∀ a b, GraphStep g a b ↔ GraphStep g1 a b)
    (h0 : 0 ≤ src) (h1 : src < (g.length : Int)) : bfs_dist g1 src = bfs_dist g src := by
  obtain ⟨d, hd, hl, hq⟩ := bfs_dist_inv g src hg h0 h1
  obtain ⟨d1, hd1, hl1, hq1⟩ := bfs_dist_inv g1 src hg1 h0 (by rw [hlen]; exact h1)
  rw [hd, hd1]
  congr 1
  exact vdist_ext (by rw [hl1, hl, hlen]) (fun v => (qinv_nil_agree hE hq hq1 v).symm)

/-! ## The loop of `gcd` -/

theorem natAbs_tmod (a b : Int) : (a.tmod b).natAbs = a.natAbs % b.natAbs := by
  cases a <;> cases b <;> simp [Int.tmod, Int.natAbs_neg] <;> rfl

theorem natAbs_cast_ite (a : Int) : (if a < 0 then -a else a) = (a.natAbs : Int) := by
  by_cases h : a < 0
  · rw [if_pos h]; omega
  · rw [if_neg h]; omega

/-- With a budget of at least `|b|` rounds the loop of `gcd` returns the
greatest common divisor of `|a|` and `|b|`. -/
theorem gcd_loop_eq : ∀ (fuel : Nat) (a b : Int), b.natAbs ≤ fuel →
    gcd_loop fuel a b = .ok ((Nat.gcd a.natAbs b.natAbs : Nat) : Int) := by
  intro fuel
  induction fuel with
  | zero =>
    intro a b hb
    have hb0 : b = 0 := by omega
    subst hb0
    unfold gcd_loop
    simp [natAbs_cast_ite]
  | succ fuel ih =>
    intro a b hb
    by_cases hb0 : b = 0
    · subst hb0
      unfold gcd_loop
      simp [natAbs_cast_ite]
    · unfold gcd_loop
      simp only [ne_eq, hb0, not_false_eq_true, if_true]
      have hpos : 0 < b.natAbs := Int.natAbs_pos.mpr hb0
      have hlt : (a.tmod b).natAbs < b.natAbs := by
        rw [natAbs_tmod]; exact Nat.mod_lt _ hpos
      rw [ih b (a.tmod b) (by omega), natAbs_tmod]
      congr 2
      rw [Nat.gcd_comm b.natAbs, ← Nat.gcd_rec, Nat.gcd_comm]

/-! ## Directions -/

theorem dir4_neg_mem {dir : Point2i} (h : dir ∈ DIR4) : (⟨-dir.x, -dir.y⟩ : Point2i) ∈ DIR4 := by
  simp only [DIR4, List.mem_cons, List.mem_singleton, List.not_mem_nil, or_false] at h
  rcases h with rfl | rfl | rfl | rfl <;> decide

/-! ## Grid search: what one pass writes and pushes -/

/-- A write of the distance matrix that succeeds changes the entry written and
no other. -/
theorem dist_set_ok_spec {dist dist1 : List (List Int)} {p : Point2i} {a : Int}
    (h : dist_set dist p a = .ok dist1) :
    ∀ c, mdist dist1 c = if c = p then a else mdist dist c := by
  unfold dist_set at h
  cases hrow : vec_get dist p.y with
  | error e => simp only [hrow] at h; cases h
  | ok row =>
    simp only [hrow] at h
    cases hrow1 : vec_set row p.x a with
    | error e => simp only [hrow1] at h; cases h
    | ok row1 =>
      simp only [hrow1] at h
      obtain ⟨hx0, hx1, rfl⟩ := vec_set_eq_ok.mp hrow1
      obtain ⟨hy0, hy1, rfl⟩ := vec_set_eq_ok.mp h
      have hxl : p.x < (row.length : Int) := by omega
      have hyl : p.y < (dist.length : Int) := by omega
      intro c
      by_cases hcp : c = p
      · subst hcp
        rw [if_pos rfl]
        apply mdist_of_get
        simp only [dist_get, vec_get_set_self dist _ hy0 hyl, vec_get_set_self row a hx0 hxl]
      · rw [if_neg hcp]
        by_cases hy : c.y = p.y
        · have hxne : c.x ≠ p.x := by
            intro hxe; apply hcp
            cases c; cases p; simp_all
          simp only [mdist, dist_get, hy, vec_get_set_self dist _ hy0 hyl, hrow,
            vec_get_set_ne row a hx0 hxne]
        · simp only [mdist, dist_get, vec_get_set_ne dist _ hy0 hy]

/-- A pass of the direction loop either leaves the distances, the queue and the
push count alone, or pushes one cell whose entry was `-1` and writes `d + 1`
there and nowhere else. -/
theorem bfs_grid_visit_effect {α : Type} {g : Grid2D α} {passable : α → Bool}
    {p dir : Point2i} {d : Int} {s s1 : GridRun}
    (h : bfs_grid_visit g passable p d s dir = .ok s1) :
    (s1.dist = s.dist ∧ s1.q = s.q ∧ s1.pushes = s.pushes) ∨
    (∃ np, s1.q = s.q ++ [np] ∧ s1.pushes = s.pushes + 1 ∧ mdist s.dist np = -1 ∧
      ∀ c, mdist s1.dist c = if c = np then d + 1 else mdist s.dist c) := by
  unfold bfs_grid_visit at h
  rcases in_bounds_cases g (p.x + dir.x) (p.y + dir.y) with hin | hin
  · simp only [hin] at h
    cases hget : dist_get s.dist ⟨p.x + dir.x, p.y + dir.y⟩ with
    | error e => simp only [hget] at h; cases h
    | ok v =>
      simp only [hget] at h
      by_cases hv : v = -1
      · subst hv
        simp only [ne_eq, not_true_eq_false, if_false] at h
        cases hat : grid_at g ⟨p.x + dir.x, p.y + dir.y⟩ with
        | error e => simp only [hat] at h; cases h
        | ok c =>
          simp only [hat] at h
          by_cases hpass : passable c = true
          · simp only [hpass, Bool.not_true, Bool.false_eq_true, if_false] at h
            cases hset : dist_set s.dist ⟨p.x + dir.x, p.y + dir.y⟩ (d + 1) with
            | error e => simp only [hset] at h; cases h
            | ok dist1 =>
              simp only [hset, Except.ok.injEq] at h
              subst h
              exact Or.inr ⟨_, rfl, rfl, mdist_of_get hget, dist_set_ok_spec hset⟩
          · simp only [hpass, Bool.not_false, if_true, Except.ok.injEq] at h
            subst h
            exact Or.inl ⟨rfl, rfl, rfl⟩
      · simp only [ne_eq, hv, not_false_eq_true, if_true, Except.ok.injEq] at h
        subst h
        exact Or.inl ⟨rfl, rfl, rfl⟩
  · simp only [hin, Except.ok.injEq] at h
    subst h
    exact Or.inl ⟨rfl, rfl, rfl⟩

/-- An entry that is not `-1` is never written again by the direction loop. -/
theorem bfs_grid_dirs_keep {α : Type} {g : Grid2D α} {passable : α → Bool} {p : Point2i}
    {d : Int} (dirs : List Point2i) :
    ∀ {s s1 : GridRun}, bfs_grid_dirs g passable p d dirs s = .ok s1 →
      ∀ c, mdist s.dist c ≠ -1 → mdist s1.dist c = mdist s.dist c := by
  induction dirs with
  | nil =>
    intro s s1 h c _
    simp only [bfs_grid_dirs, Except.ok.injEq] at h
    rw [h]
  | cons dir dirs ih =>
    intro s s1 h c hc
    unfold bfs_grid_dirs at h
    cases hv : bfs_grid_visit g passable p d s dir with
    | error e => simp only [hv] at h; cases h
    | ok s2 =>
      simp only [hv] at h
      have h2 : mdist s2.dist c = mdist s.dist c := by
        rcases bfs_grid_visit_effect hv with ⟨hd, _, _⟩ | ⟨np, _, _, hnp, hD⟩
        · rw [hd]
        · have hne : c ≠ np := by rintro rfl; exact hc hnp
          rw [hD c, if_neg hne]
      rw [ih h c (by rw [h2]; exact hc), h2]

/-- The direction loop appends to the queue distinct cells whose entries were
`-1`, counts each of them as a push, and gives each of them an entry. -/
theorem bfs_grid_dirs_effect {α : Type} {g : Grid2D α} {passable : α → Bool} {p : Point2i}
    {d : Int} (hd : -1 ≤ d) (dirs : List Point2i) :
    ∀ {s s1 : GridRun}, bfs_grid_dirs g passable p d dirs s = .ok s1 →
      (∀ c, -1 ≤ mdist s.dist c) →
      ∃ new, s1.q = s.q ++ new ∧ s1.pushes = s.pushes + new.length ∧ new.Nodup ∧
        (∀ c ∈ new, mdist s.dist c = -1) ∧
        (∀ c, mdist s1.dist c ≠ -1 ↔ (mdist s.dist c ≠ -1 ∨ c ∈ new)) ∧
        (∀ c, -1 ≤ mdist s1.dist c) := by
  induction dirs with
  | nil =>
    intro s s1 h hlow
    simp only [bfs_grid_dirs, Except.ok.injEq] at h
    subst h
    exact ⟨[], by simp, by simp, List.nodup_nil, by simp, by simp, hlow⟩
  | cons dir dirs ih =>
    intro s s1 h hlow
    unfold bfs_grid_dirs at h
    cases hv : bfs_grid_visit g passable p d s dir with
    | error e => simp only [hv] at h; cases h
    | ok s2 =>
      simp only [hv] at h
      rcases bfs_grid_visit_effect hv with ⟨hdist, hq, hp⟩ | ⟨np, hq, hp, hnp, hD⟩
      · obtain ⟨new, h1, h2, h3, h4, h5, h6⟩ := ih h (by rw [hdist]; exact hlow)
        rw [hdist] at h4 h5
        exact ⟨new, by rw [h1, hq], by rw [h2, hp], h3, h4, h5, h6⟩
      · have hlow2 : ∀ c, -1 ≤ mdist s2.dist c := by
          intro c
          rw [hD c]
          by_cases hc : c = np
          · rw [if_pos hc]; omega
          · rw [if_neg hc]; exact hlow c
        obtain ⟨new, h1, h2, h3, h4, h5, h6⟩ := ih h hlow2
        have hnpnew : np ∉ new := by
          intro hmem
          have := h4 np hmem
          rw [hD np, if_pos rfl] at this
          omega
        refine ⟨np :: new, ?_, ?_, List.nodup_cons.mpr ⟨hnpnew, h3⟩, ?_, ?_, h6⟩
        · rw [h1, hq, List.append_assoc, List.singleton_append]
        · rw [h2, hp, List.length_cons]; omega
        · intro c hc
          rcases List.mem_cons.mp hc with rfl | hc'
          · exact hnp
          · have := h4 c hc'
            rw [hD c] at this
            by_cases hcn : c = np
            · rw [if_pos hcn] at this; omega
            · rw [if_neg hcn] at this; exact this
        · intro c
          rw [h5 c, hD c, List.mem_cons]
          by_cases hcn : c = np
          · rw [if_pos hcn]
            constructor
            · intro _; exact Or.inr (Or.inl hcn)
            · intro _; left; omega
          · rw [if_neg hcn]
            constructor
            · rintro (h7 | h7)
              · exact Or.inl h7
              · exact Or.inr (Or.inr h7)
            · rintro (h7 | h7 | h7)
              · exact Or.inl h7
              · exact absurd h7 hcn
              · exact Or.inr h7

/-- The pushes of the queue loop, for a run of the loop that returns: they are
distinct cells whose entries were `-1` at the start of the loop, they are as
many as the push count grows, and they are the cells that get an entry. -/
theorem bfs_grid_pushed_spec {α : Type} (g : Grid2D α) (passable : α → Bool) :
    ∀ (fuel : Nat) (s sf : GridRun), bfs_grid_loop g passable fuel s = .ok sf →
      (∀ c, -1 ≤ mdist s.dist c) →
      ∃ log, bfs_grid_pushed g passable fuel s = .ok log ∧ log.Nodup ∧
        (∀ c ∈ log, mdist s.dist c = -1) ∧ sf.pushes = s.pushes + log.length ∧
        (∀ c, mdist sf.dist c ≠ -1 ↔ (mdist s.dist c ≠ -1 ∨ c ∈ log)) := by
  intro fuel
  induction fuel with
  | zero =>
    intro s sf h _
    unfold bfs_grid_loop at h
    cases hq : s.q with
    | nil =>
      simp only [hq, Except.ok.injEq] at h
      subst h
      refine ⟨[], ?_, List.nodup_nil, by simp, by simp, by simp⟩
      unfold bfs_grid_pushed; rw [hq]
    | cons p rest => simp only [hq] at h; cases h
  | succ fuel ih =>
    intro s sf h hlow
    unfold bfs_grid_loop at h
    cases hq : s.q with
    | nil =>
      simp only [hq, Except.ok.injEq] at h
      subst h
      refine ⟨[], ?_, List.nodup_nil, by simp, by simp, by simp⟩
      unfold bfs_grid_pushed; rw [hq]
    | cons p rest =>
      simp only [hq] at h
      cases hget : dist_get s.dist p with
      | error e => simp only [hget] at h; cases h
      | ok d =>
        simp only [hget] at h
        cases hdirs : bfs_grid_dirs g passable p d DIR4 { s with q := rest } with
        | error e => simp only [hdirs] at h; cases h
        | ok s1 =>
          simp only [hdirs] at h
          have hd : -1 ≤ d := by rw [← mdist_of_get hget]; exact hlow p
          obtain ⟨new, h1, h2, h3, h4, h5, h6⟩ := bfs_grid_dirs_effect hd DIR4 hdirs hlow
          obtain ⟨log, hl1, hl2, hl3, hl4, hl5⟩ := ih s1 sf h h6
          have hq1 : s1.q = rest ++ new := h1
          have hdrop : s1.q.drop rest.length = new := by
            rw [hq1, List.drop_left]
          refine ⟨new ++ log, ?_, ?_, ?_, ?_, ?_⟩
          · unfold bfs_grid_pushed
            simp only [hq, hget, hdirs, hl1, hdrop]
          · refine List.nodup_append.mpr ⟨h3, hl2, ?_⟩
            intro c hc1 hc2
            exact ((h5 c).mpr (Or.inr hc1)) (hl3 c hc2)
          · intro c hc
            rcases List.mem_append.mp hc with hc1 | hc2
            · exact h4 c hc1
            · by_contra hne
              exact ((h5 c).mpr (Or.inl hne)) (hl3 c hc2)
          · rw [hl4, h2, List.length_append]
            show s.pushes + new.length + log.length = s.pushes + (new.length + log.length)
            omega
          · intro c
            rw [hl5 c, h5 c, List.mem_append]
            show (mdist s.dist c ≠ -1 ∨ c ∈ new) ∨ c ∈ log ↔ _
            tauto

/-! ## Grid search: grids that differ at the start only -/

theorem grid_width_map {α : Type} (g : Grid2D α) :
    grid_width g = ((g.map List.length).head?).getD 0 := by
  cases g <;> rfl

theorem in_bounds_of_shape {α : Type} {g1 g2 : Grid2D α}
    (h : g1.map List.length = g2.map List.length) (x y : Int) :
    in_bounds g1 x y = in_bounds g2 x y := by
  have hlen : g1.length = g2.length := by
    have := congrArg List.length h
    simpa using this
  have hrow : ∀ (g : Grid2D α) (i : Nat),
      (g.getD i []).length = (g.map List.length).getD i 0 := by
    intro g i
    simp only [List.getD_eq_getElem?_getD, List.getElem?_map]
    cases g[i]? <;> rfl
  rw [in_bounds_eq, in_bounds_eq, hlen, hrow g1, hrow g2, h]

theorem bfs_grid_visit_congr {α : Type} {g1 g2 : Grid2D α} {passable : α → Bool}
    {start : Point2i} (hin : ∀ x y, in_bounds g1 x y = in_bounds g2 x y)
    (hat : ∀ c, c ≠ start → grid_at g1 c = grid_at g2 c) (p dir : Point2i) (d : Int)
    (s : GridRun) (hs : mdist s.dist start ≠ -1) :
    bfs_grid_visit g1 passable p d s dir = bfs_grid_visit g2 passable p d s dir := by
  unfold bfs_grid_visit
  simp only [hin]
  rcases in_bounds_cases g2 (p.x + dir.x) (p.y + dir.y) with hb | hb
  · simp only [hb]
    cases hget : dist_get s.dist ⟨p.x + dir.x, p.y + dir.y⟩ with
    | error e => rfl
    | ok v =>
      simp only
      by_cases hv : v = -1
      · have hne : (⟨p.x + dir.x, p.y + dir.y⟩ : Point2i) ≠ start := by
          intro he
          apply hs
          rw [← he, mdist_of_get hget, hv]
        rw [hat _ hne]
      · simp only [ne_eq, hv, not_false_eq_true, if_true]
  · simp only [hb]

theorem bfs_grid_dirs_congr {α : Type} {g1 g2 : Grid2D α} {passable : α → Bool}
    {start : Point2i} (hin : ∀ x y, in_bounds g1 x y = in_bounds g2 x y)
    (hat : ∀ c, c ≠ start → grid_at g1 c = grid_at g2 c) (p : Point2i) (d : Int)
    (dirs : List Point2i) :
    ∀ (s : GridRun), mdist s.dist start ≠ -1 →
      bfs_grid_dirs g1 passable p d dirs s = bfs_grid_dirs g2 passable p d dirs s := by
  induction dirs with
  | nil => intro s _; rfl
  | cons dir dirs ih =>
    intro s hs
    unfold bfs_grid_dirs
    rw [bfs_grid_visit_congr hin hat p dir d s hs]
    cases hv : bfs_grid_visit g2 passable p d s dir with
    | error e => rfl
    | ok s2 =>
      simp only
      apply ih
      rcases bfs_grid_visit_effect hv with ⟨hd, _, _⟩ | ⟨np, _, _, hnp, hD⟩
      · rw [hd]; exact hs
      · have hne : start ≠ np := by rintro rfl; exact hs hnp
        rw [hD start, if_neg hne]; exact hs

theorem bfs_grid_loop_congr {α : Type} {g1 g2 : Grid2D α} {passable : α → Bool}
    {start : Point2i} (hin : ∀ x y, in_bounds g1 x y = in_bounds g2 x y)
    (hat : ∀ c, c ≠ start → grid_at g1 c = grid_at g2 c) :
    ∀ (fuel : Nat) (s : GridRun), mdist s.dist start ≠ -1 →
      bfs_grid_loop g1 passable fuel s = bfs_grid_loop g2 passable fuel s := by
  intro fuel
  induction fuel with
  | zero =>
    intro s _
    unfold bfs_grid_loop
    cases s.q <;> rfl
  | succ fuel ih =>
    intro s hs
    unfold bfs_grid_loop
    cases hq : s.q with
    | nil => rfl
    | cons p rest =>
      simp only
      cases hget : dist_get s.dist p with
      | error e => rfl
      | ok d =>
        simp only
        rw [bfs_grid_dirs_congr hin hat p d DIR4 { s with q := rest } hs]
        cases hdirs : bfs_grid_dirs g2 passable p d DIR4 { s with q := rest } with
        | error e => rfl
        | ok s1 =>
          simp only
          apply ih
          rw [bfs_grid_dirs_keep DIR4 hdirs start hs]
          exact hs

/-- Two grids of the same row shape that agree on every cell but `start` have
the same run from `start`. -/
theorem bfs_grid_run_congr {α : Type} {g1 g2 : Grid2D α} (passable : α → Bool)
    (start : Point2i) (hshape : g1.map List.length = g2.map List.length)
    (hat : ∀ c, c ≠ start → grid_at g1 c = grid_at g2 c) :
    bfs_grid_run g1 start passable = bfs_grid_run g2 start passable := by
  have hlen : g1.length = g2.length := by
    have := congrArg List.length hshape
    simpa using this
  have hw : grid_width g1 = grid_width g2 := by
    rw [grid_width_map, grid_width_map, hshape]
  have hin := in_bounds_of_shape hshape
  unfold bfs_grid_run
  simp only [hin, hlen, hw]
  rcases in_bounds_cases g2 start.x start.y with hb | hb
  · simp only [hb]
    cases hset : dist_set (List.replicate g2.length (List.replicate (grid_width g2) (-1)))
        start 0 with
    | error e => rfl
    | ok dist0 =>
      simp only
      apply bfs_grid_loop_congr hin hat
      show mdist dist0 start ≠ -1
      rw [dist_set_ok_spec hset start, if_pos rfl]
      decide
  · simp only [hb]

/-! ## Walks of length zero, and two example grids -/

theorem walk_zero {V : Type} {E : V → V → Prop} {src v : V} (h : Walk E src 0 v) : v = src := by
  cases h
  rfl

theorem dir4_ne_zero {dir : Point2i} (h : dir ∈ DIR4) : ¬ (dir.x = 0 ∧ dir.y = 0) := by
  simp only [DIR4, List.mem_cons, List.mem_singleton, List.not_mem_nil, or_false] at h
  rcases h with rfl | rfl | rfl | rfl <;> decide

theorem wall_free_agree (c : Point2i) (hc : c ≠ ⟨0, 0⟩) :
    grid_at wall_grid c = grid_at free_grid c := by
  unfold grid_at
  by_cases hy : c.y = 0
  · have h1 : vec_get wall_grid c.y = .ok ['#', '.'] := by rw [hy]; decide
    have h2 : vec_get free_grid c.y = .ok ['.', '.'] := by rw [hy]; decide
    simp only [h1, h2]
    have hx : c.x ≠ 0 := by
      intro hx; apply hc
      cases c; simp_all
    by_cases hx1 : c.x = 1
    · rw [hx1]; decide
    · rw [vec_get_error (by simp only [List.length_cons, List.length_nil]; omega),
        vec_get_error (by simp only [List.length_cons, List.length_nil]; omega)]
  · have h1 : vec_get wall_grid c.y = .error .out_of_range :=
      vec_get_error (by simp only [wall_grid, List.length_cons, List.length_nil]; omega)
    have h2 : vec_get free_grid c.y = .error .out_of_range :=
      vec_get_error (by simp only [free_grid, List.length_cons, List.length_nil]; omega)
    simp only [h1, h2]

/-! ## Lines without carriage returns -/

theorem strip_cr_of_not_mem {cur : List Char} (h : '\r' ∉ cur) : strip_cr cur = cur := by
  unfold strip_cr
  have hl : ¬ (cur.getLast? = some '\r') := by
    intro he
    exact h (List.mem_of_getLast?_eq_some he)
  simp [hl]

theorem flush_line_nonempty {res : List (List Char)} {cur : List Char}
    (hres : ∀ l ∈ res, l ≠ []) (hcur : '\r' ∉ cur) :
    ∀ l ∈ flush_line true res cur, l ≠ [] := by
  unfold flush_line
  by_cases hc : cur = []
  · subst hc
    simpa using hres
  · have hne : cur.isEmpty = false := by
      cases cur with
      | nil => exact absurd rfl hc
      | cons _ _ => rfl
    simp only [hne, Bool.not_false, Bool.not_true, Bool.or_false, if_true]
    intro l hl
    rcases List.mem_append.mp hl with h1 | h1
    · exact hres l h1
    · rw [List.mem_singleton] at h1
      rw [h1, strip_cr_of_not_mem hcur]
      exact hc

/-- On a text without carriage returns `split_lines(s, true)` returns no empty
line. -/
theorem split_lines_nonempty_of_no_cr (s : List Char) (hs : '\r' ∉ s) :
    ∀ l ∈ split_lines s true, l ≠ [] := by
  have hfold : ∀ (cs : List Char) (st : List (List Char) × List Char),
      '\r' ∉ cs → (∀ l ∈ st.1, l ≠ []) → '\r' ∉ st.2 →
      (∀ l ∈ (cs.foldl (split_lines_step true) st).1, l ≠ []) ∧
        '\r' ∉ (cs.foldl (split_lines_step true) st).2 := by
    intro cs
    induction cs with
    | nil => intro st _ h1 h2; exact ⟨h1, h2⟩
    | cons c cs ih =>
      intro st hcs h1 h2
      rw [List.foldl_cons]
      have hc : c ≠ '\r' := fun he => hcs (by rw [he]; exact List.mem_cons_self _ _)
      have hcs' : '\r' ∉ cs := fun hm => hcs (List.mem_cons_of_mem _ hm)
      apply ih _ hcs'
      · unfold split_lines_step
        by_cases hn : c = '\n'
        · simp only [hn, if_true]
          exact flush_line_nonempty h1 h2
        · simp only [hn, if_false]
          exact h1
      · unfold split_lines_step
        by_cases hn : c = '\n'
        · simp only [hn, if_true]
          exact List.not_mem_nil _
        · simp only [hn, if_false]
          intro hm
          rcases List.mem_append.mp hm with h3 | h3
          · exact h2 h3
          · rw [List.mem_singleton] at h3
            exact hc h3.symm
  obtain ⟨h1, h2⟩ := hfold s ([], []) hs (by simp) (by simp)
  unfold split_lines
  exact flush_line_nonempty h1 h2

/-! ## Grid search: the states of a run -/

theorem writeStep_same {a b : GridRun} (hd : b.dist = a.dist) (hp : b.pushes = a.pushes) :
    WriteStep a b := Or.inl ⟨hd, hp⟩

theorem writeStep_keeps {a b : GridRun} (h : WriteStep a b) : KeepsEntries a b := by
  intro c hc
  rcases h with ⟨hd, _⟩ | ⟨np, v, hnp, _, hD, _, _⟩
  · rw [hd]
  · have hne : c ≠ np := by rintro rfl; exact hc hnp
    rw [hD c, if_neg hne]

instance keepsEntries_trans : IsTrans GridRun KeepsEntries where
  trans a b c hab hbc := by
    intro x hx
    have h1 := hab x hx
    rw [hbc x (by rw [h1]; exact hx), h1]

theorem bfs_grid_visit_writeStep {α : Type} {g : Grid2D α} {passable : α → Bool}
    {p dir : Point2i} {d : Int} {s s1 : GridRun} (hd : -1 ≤ d)
    (h : bfs_grid_visit g passable p d s dir = .ok s1) : WriteStep s s1 := by
  rcases bfs_grid_visit_effect h with ⟨h1, _, h3⟩ | ⟨np, hq, hp, hnp, hD⟩
  · exact Or.inl ⟨h1, h3⟩
  · exact Or.inr ⟨np, d + 1, hnp, by omega, hD, hp, hq⟩

/-- The states of the direction loop form a chain of write steps from the
state the loop starts in to the state it returns. -/
theorem bfs_grid_dirs_states_spec {α : Type} {g : Grid2D α} {passable : α → Bool}
    {p : Point2i} {d : Int} (hd : -1 ≤ d) (dirs : List Point2i) :
    ∀ {s s1 : GridRun}, bfs_grid_dirs g passable p d dirs s = .ok s1 →
      ∃ t, bfs_grid_dirs_states g passable p d dirs s = .ok t ∧
        List.Chain' WriteStep (s :: t) ∧ (s :: t).getLast? = some s1 := by
  induction dirs with
  | nil =>
    intro s s1 h
    simp only [bfs_grid_dirs, Except.ok.injEq] at h
    subst h
    exact ⟨[], rfl, List.chain'_singleton _, rfl⟩
  | cons dir dirs ih =>
    intro s s1 h
    unfold bfs_grid_dirs at h
    cases hv : bfs_grid_visit g passable p d s dir with
    | error e => simp only [hv] at h; cases h
    | ok s2 =>
      simp only [hv] at h
      obtain ⟨t, ht, hc, hl⟩ := ih h
      refine ⟨s2 :: t, ?_, ?_, ?_⟩
      · unfold bfs_grid_dirs_states
        simp only [hv, ht]
      · exact List.chain'_cons.mpr ⟨bfs_grid_visit_writeStep hd hv, hc⟩
      · rw [List.getLast?_cons_cons]; exact hl

/-- The states of the queue loop form a chain of write steps from the state
the loop starts in to the state it returns. -/
theorem bfs_grid_states_spec {α : Type} (g : Grid2D α) (passable : α → Bool) :
    ∀ (fuel : Nat) (s sf : GridRun), bfs_grid_loop g passable fuel s = .ok sf →
      (∀ c, -1 ≤ mdist s.dist c) →
      ∃ t, bfs_grid_states g passable fuel s = .ok (s :: t) ∧
        List.Chain' WriteStep (s :: t) ∧ (s :: t).getLast? = some sf := by
  intro fuel
  induction fuel with
  | zero =>
    intro s sf h _
    unfold bfs_grid_loop at h
    cases hq : s.q with
    | nil =>
      simp only [hq, Except.ok.injEq] at h
      subst h
      refine ⟨[], ?_, List.chain'_singleton _, rfl⟩
      unfold bfs_grid_states; rw [hq]
    | cons p rest => simp only [hq] at h; cases h
  | succ fuel ih =>
    intro s sf h hlow
    unfold bfs_grid_loop at h
    cases hq : s.q with
    | nil =>
      simp only [hq, Except.ok.injEq] at h
      subst h
      refine ⟨[], ?_, List.chain'_singleton _, rfl⟩
      unfold bfs_grid_states; rw [hq]
    | cons p rest =>
      simp only [hq] at h
      cases hget : dist_get s.dist p with
      | error e => simp only [hget] at h; cases h
      | ok d =>
        simp only [hget] at h
        cases hdirs : bfs_grid_dirs g passable p d DIR4 { s with q := rest } with
        | error e => simp only [hdirs] at h; cases h
        | ok s1 =>
          simp only [hdirs] at h
          have hd : -1 ≤ d := by rw [← mdist_of_get hget]; exact hlow p
          obtain ⟨_, _, _, _, _, _, hlow1⟩ := bfs_grid_dirs_effect hd DIR4 hdirs hlow
          obtain ⟨td, htd, hcd, hld⟩ := bfs_grid_dirs_states_spec hd DIR4 hdirs
          obtain ⟨t2, ht2, hc2, hl2⟩ := ih s1 sf h hlow1
          refine ⟨({ s with q := rest } :: td) ++ (s1 :: t2), ?_, ?_, ?_⟩
          · unfold bfs_grid_states
            simp only [hq, hget, htd, hdirs, ht2]
            rfl
          · have happ : List.Chain' WriteStep (({ s with q := rest } :: td) ++ (s1 :: t2)) := by
              refine List.Chain'.append hcd hc2 ?_
              intro x hx y hy
              rw [hld] at hx
              simp only [Option.mem_def, Option.some.injEq] at hx
              simp only [List.head?_cons, Option.mem_def, Option.some.injEq] at hy
              subst hx
              subst hy
              exact writeStep_same rfl rfl
            rw [List.cons_append] at happ ⊢
            exact List.chain'_cons.mpr ⟨writeStep_same rfl rfl, happ⟩
          · rw [List.cons_append, List.getLast?_cons_cons, ← List.cons_append,
              List.getLast?_append, hl2]
            rfl

/-- The states of a call on a rectangular grid from an in-bounds start form a
chain of write steps that ends in the state the call returns. -/
theorem bfs_grid_run_states_spec {α : Type} (g : Grid2D α) (start : Point2i)
    (passable : α → Bool) (hr : Rectangular g)
    (hin : in_bounds g start.x start.y = .ok true) {s : GridRun}
    (hrun : bfs_grid_run g start passable = .ok s) :
    ∃ states, bfs_grid_run_states g start passable = .ok states ∧
      states.getLast? = some s ∧ List.Chain' WriteStep states := by
  obtain ⟨hy0, hy1, hx0, hx1⟩ := (rect_in_bounds hr _ _).mp hin
  obtain ⟨dist0, hset, _, hD, _⟩ :=
    dist_set_in (shape_replicate g.length (grid_width g)) (p := start) 0 hy0 hy1 hx0 hx1
  have hD0 : ∀ c, mdist dist0 c = if c = start then 0 else -1 := by
    intro c; rw [hD c, mdist_replicate]
  have hloop : bfs_grid_loop g passable (g.length * grid_width g)
      { dist := dist0, q := [start], probes := 0, pushes := 1 } = .ok s := by
    have h := hrun
    simp only [bfs_grid_run, hin, hset] at h
    exact h
  obtain ⟨t, ht, hc, hl⟩ :=
    bfs_grid_states_spec g passable _ _ s hloop (by
      intro c
      show -1 ≤ mdist dist0 c
      rw [hD0 c]
      by_cases hcs : c = start
      · rw [if_pos hcs]; decide
      · rw [if_neg hcs])
  refine ⟨{ dist := List.replicate g.length (List.replicate (grid_width g) (-1)), q := [],
             probes := 0, pushes := 0 } ::
            { dist := dist0, q := [start], probes := 0, pushes := 1 } :: t, ?_, ?_, ?_⟩
  · simp only [bfs_grid_run_states, hin, hset, ht]
  · rw [List.getLast?_cons_cons]; exact hl
  · refine List.chain'_cons.mpr ⟨?_, hc⟩
    exact Or.inr ⟨start, 0, mdist_replicate _ _ _, by decide, hD, rfl, rfl⟩

theorem pairwise_getLast {β : Type} {R : β → β → Prop} (hrefl : ∀ x, R x x) :
    ∀ (l : List β) (z : β), l.Pairwise R → l.getLast? = some z → ∀ a ∈ l, R a z := by
  intro l
  induction l with
  | nil => intro z _ _ a ha; exact absurd ha (List.not_mem_nil _)
  | cons x xs ih =>
    intro z hp hl a ha
    cases xs with
    | nil =>
      simp only [List.getLast?_singleton, Option.some.injEq] at hl
      rw [List.mem_singleton] at ha
      rw [ha, hl]
      exact hrefl z
    | cons y ys =>
      rw [List.getLast?_cons_cons] at hl
      obtain ⟨hx, hrest⟩ := List.pairwise_cons.mp hp
      rcases List.mem_cons.mp ha with rfl | ha'
      · exact hx z (List.mem_of_getLast?_eq_some hl)
      · exact ih z hrest hl a ha'

/-! ## The claims -/

/-- C1: on a rectangular grid with an in-bounds start `bfs_dist_grid` returns a
distance matrix, and every non-negative entry `d` at a cell `c` is the length of
a shortest 4-directional path from `start` to `c` through in-bounds passable
cells: a path of exactly `d` steps exists and no path has fewer steps. -/
theorem bfs_dist_grid_shortest {α : Type} (g : Grid2D α) (start : Point2i)
    (passable : α → Bool) (hr : Rectangular g)
    (hin : in_bounds g start.x start.y = .ok true) :
    ∃ dist, bfs_dist_grid g start passable = .ok dist ∧
      ∀ (c : Point2i) (d : Int), dist_get dist c = .ok d → 0 ≤ d →
        ∃ n : Nat, d = (n : Int) ∧ GridPath g passable start n c ∧
          ∀ m, GridPath g passable start m c → n ≤ m := by
  obtain ⟨s, hrun, _, hq, _, _⟩ := bfs_grid_run_inv g start passable hr hin
  refine ⟨s.dist, by simp [bfs_dist_grid, hrun], ?_⟩
  intro c d hget hd
  have hm : mdist s.dist c = d := mdist_of_get hget
  obtain ⟨n, hn, hwalk⟩ := hq.sound c (by rw [hm]; omega)
  refine ⟨n, by rw [← hm, hn], hwalk, ?_⟩
  intro m hwm
  have := (qinv_nil_walk _ _ hq hwm).2
  omega

/-- C1 at the grid `["...", ".#.", "..."]` from (0,0) with "not `#`": the
rows are [0,1,2], [1,-1,3], [2,3,4]. -/
theorem bfs_dist_grid_shortest_witness :
    bfs_dist_grid ring_grid ⟨0, 0⟩ not_wall = .ok [[0, 1, 2], [1, -1, 3], [2, 3, 4]] ∧
    ∃ dist, bfs_dist_grid ring_grid ⟨0, 0⟩ not_wall = .ok dist ∧
      ∀ (c : Point2i) (d : Int), dist_get dist c = .ok d → 0 ≤ d →
        ∃ n : Nat, d = (n : Int) ∧ GridPath ring_grid not_wall ⟨0, 0⟩ n c ∧
          ∀ m, GridPath ring_grid not_wall ⟨0, 0⟩ m c → n ≤ m :=
  ⟨by decide, bfs_dist_grid_shortest ring_grid ⟨0, 0⟩ not_wall (by decide) (by decide)⟩

/-- C2: on a rectangular grid with an in-bounds start every in-bounds cell has
an entry in the result of `bfs_dist_grid`, and a cell whose entry is `-1` is
the end of no 4-directional path from `start` through in-bounds passable
cells. -/
theorem bfs_dist_grid_unreached {α : Type} (g : Grid2D α) (start : Point2i)
    (passable : α → Bool) (hr : Rectangular g)
    (hin : in_bounds g start.x start.y = .ok true) :
    ∃ dist, bfs_dist_grid g start passable = .ok dist ∧
      ∀ c : Point2i, in_bounds g c.x c.y = .ok true →
        ∃ d, dist_get dist c = .ok d ∧
          (d = -1 → ∀ n, ¬ GridPath g passable start n c) := by
  obtain ⟨s, hrun, hs, hq, _, _⟩ := bfs_grid_run_inv g start passable hr hin
  refine ⟨s.dist, by simp [bfs_dist_grid, hrun], ?_⟩
  intro c hc
  obtain ⟨hy0, hy1, hx0, hx1⟩ := (rect_in_bounds hr _ _).mp hc
  obtain ⟨_, d, _, _, _, _, _, hget⟩ := shape_cell hs hy0 hy1 hx0 hx1
  refine ⟨d, hget, ?_⟩
  intro hd n hwalk
  exact (qinv_nil_walk _ _ hq hwalk).1 (by rw [mdist_of_get hget, hd])

/-- C2 at the grid `["...", ".#.", "..."]`: the wall cell (1,1) holds `-1`. -/
theorem bfs_dist_grid_unreached_witness :
    (∃ dist, bfs_dist_grid ring_grid ⟨0, 0⟩ not_wall = .ok dist ∧
      dist_get dist ⟨1, 1⟩ = .ok (-1)) ∧
    ∃ dist, bfs_dist_grid ring_grid ⟨0, 0⟩ not_wall = .ok dist ∧
      ∀ c : Point2i, in_bounds ring_grid c.x c.y = .ok true →
        ∃ d, dist_get dist c = .ok d ∧
          (d = -1 → ∀ n, ¬ GridPath ring_grid not_wall ⟨0, 0⟩ n c) :=
  ⟨⟨[[0, 1, 2], [1, -1, 3], [2, 3, 4]], by decide, by decide⟩,
    bfs_dist_grid_unreached ring_grid ⟨0, 0⟩ not_wall (by decide) (by decide)⟩

/-- C3: on a well-formed adjacency list and a source that is a node,
`bfs_dist` returns a vector with one entry per node; the entry of the source
is 0; the entry of a node is `-1` exactly when no directed path leads from the
source to it, and otherwise it is the number of edges of a shortest one. -/
theorem bfs_dist_shortest (g : AdjList) (src : Int) (hg : WellFormed g) (h0 : 0 ≤ src)
    (h1 : src < (g.length : Int)) :
    ∃ dist, bfs_dist g src = .ok dist ∧ dist.length = g.length ∧
      vec_get dist src = .ok 0 ∧
      ∀ v : Int, 0 ≤ v → v < (g.length : Int) →
        ∃ d, vec_get dist v = .ok d ∧
          (d = -1 ↔ ∀ n, ¬ GraphPath g src n v) ∧
          (d ≠ -1 → ∃ n : Nat, d = (n : Int) ∧ GraphPath g src n v ∧
            ∀ m, GraphPath g src m v → n ≤ m) := by
  obtain ⟨dist, hrun, hlen, hq⟩ := bfs_dist_inv g src hg h0 h1
  refine ⟨dist, hrun, hlen, ?_, ?_⟩
  · have := (@vdist_vis dist src (by rw [hq.src0]; decide)).2.2
    rw [hq.src0] at this
    exact this
  · intro v hv0 hv1
    obtain ⟨d, hget, _⟩ := vec_get_of_lt hv0 (by rw [hlen]; exact hv1)
    have hm : vdist dist v = d := vdist_of_get hget
    refine ⟨d, hget, ⟨?_, ?_⟩, ?_⟩
    · intro hd n hwalk
      exact (qinv_nil_walk _ _ hq hwalk).1 (by rw [hm, hd])
    · intro hno
      by_contra hd
      obtain ⟨n, _, hwalk⟩ := hq.sound v (by rw [hm]; exact hd)
      exact hno n hwalk
    · intro hd
      obtain ⟨n, hn, hwalk⟩ := hq.sound v (by rw [hm]; exact hd)
      refine ⟨n, by rw [← hm, hn], hwalk, ?_⟩
      intro m hwm
      have := (qinv_nil_walk _ _ hq hwm).2
      omega

/-- C3 at the path graph on four nodes: it is what `make_adj_list 4` and the
undirected edges (0,1), (1,2), (2,3) build, and the distances from node 0 are
[0,1,2,3]. -/
theorem bfs_dist_shortest_witness :
    (∃ g0 g1 g2, make_adj_list 4 = .ok g0 ∧ add_undirected_edge g0 0 1 = .ok g1 ∧
      add_undirected_edge g1 1 2 = .ok g2 ∧ add_undirected_edge g2 2 3 = .ok path_graph) ∧
    bfs_dist path_graph 0 = .ok [0, 1, 2, 3] ∧
    ∃ dist, bfs_dist path_graph 0 = .ok dist ∧ dist.length = path_graph.length ∧
      vec_get dist 0 = .ok 0 ∧
      ∀ v : Int, 0 ≤ v → v < (path_graph.length : Int) →
        ∃ d, vec_get dist v = .ok d ∧
          (d = -1 ↔ ∀ n, ¬ GraphPath path_graph 0 n v) ∧
          (d ≠ -1 → ∃ n : Nat, d = (n : Int) ∧ GraphPath path_graph 0 n v ∧
            ∀ m, GraphPath path_graph 0 m v → n ≤ m) :=
  ⟨⟨[[], [], [], []], [[1], [0], [], []], [[1], [0, 2], [1], []], by decide, by decide,
      by decide, by decide⟩,
    by decide, bfs_dist_shortest path_graph 0 (by decide) (by decide) (by decide)⟩

/-- C4: when `start` is out of bounds (on any grid: empty, rectangular or
jagged) `bfs_dist_grid` returns without a fault, the passability predicate is
applied to no cell and nothing is pushed, the result does not depend on the
predicate, and every cell of the returned matrix is `-1`. -/
theorem bfs_dist_grid_start_outside {α : Type} (g : Grid2D α) (start : Point2i)
    (passable : α → Bool) (hout : in_bounds g start.x start.y = .ok false) :
    ∃ s, bfs_grid_run g start passable = .ok s ∧ s.probes = 0 ∧ s.pushes = 0 ∧ s.q = [] ∧
      bfs_dist_grid g start passable = .ok s.dist ∧
      s.dist = List.replicate g.length (List.replicate (grid_width g) (-1)) ∧
      (∀ row ∈ s.dist, ∀ d ∈ row, d = -1) ∧
      ∀ passable2 : α → Bool, bfs_dist_grid g start passable2 = .ok s.dist := by
  refine ⟨{ dist := List.replicate g.length (List.replicate (grid_width g) (-1)), q := [],
            probes := 0, pushes := 0 }, ?_, rfl, rfl, rfl, ?_, rfl, ?_, ?_⟩
  · simp only [bfs_grid_run, hout]
  · simp only [bfs_dist_grid, bfs_grid_run, hout]
  · intro row hrow d hd
    rw [List.eq_of_mem_replicate hrow] at hd
    exact List.eq_of_mem_replicate hd
  · intro passable2
    simp only [bfs_dist_grid, bfs_grid_run, hout]

/-- C4 at the jagged grid `["a", "bc"]` with start (1,0), which is outside
row 0. -/
theorem bfs_dist_grid_start_outside_witness :
    in_bounds jagged_grid 1 0 = .ok false ∧
    ∃ s, bfs_grid_run jagged_grid ⟨1, 0⟩ not_wall = .ok s ∧ s.probes = 0 ∧ s.pushes = 0 ∧
      s.q = [] ∧ bfs_dist_grid jagged_grid ⟨1, 0⟩ not_wall = .ok s.dist ∧
      s.dist = List.replicate jagged_grid.length (List.replicate (grid_width jagged_grid) (-1)) ∧
      (∀ row ∈ s.dist, ∀ d ∈ row, d = -1) ∧
      ∀ passable2 : Char → Bool, bfs_dist_grid jagged_grid ⟨1, 0⟩ passable2 = .ok s.dist :=
  ⟨by decide, bfs_dist_grid_start_outside jagged_grid ⟨1, 0⟩ not_wall (by decide)⟩

/-- C5, the code at a jagged grid: on `["a", "bc"]` from (0,0), with only `a`
passable, `bfs_dist_grid` returns rows of lengths 1 and 1, while the rows of the
grid have lengths 1 and 2. -/
theorem bfs_dist_grid_jagged_rows :
    bfs_dist_grid jagged_grid ⟨0, 0⟩ (fun c => c == 'a') = .ok [[0], [-1]] ∧
    jagged_grid.map List.length = [1, 2] ∧
    ([[0], [-1]] : List (List Int)).map List.length = [1, 1] := by
  decide

/-- C6, the code at a jagged grid: on `["a", "bc"]` the start (1,1) is in
bounds, and `bfs_dist_grid` indexes `dist[1][1]` out of range, since `dist` has
rows of the length of row 0. -/
theorem bfs_dist_grid_jagged_start :
    in_bounds jagged_grid 1 1 = .ok true ∧
    bfs_dist_grid jagged_grid ⟨1, 1⟩ (fun _ => true) = .error .out_of_range := by
  decide

/-- C7: `in_bounds g x y` never reads a row out of range, it is true exactly
when `0 <= y < g.size()` and `0 <= x < g[y].size()`, and on a grid with no rows
it is false for every point. -/
theorem in_bounds_spec {α : Type} (g : Grid2D α) (x y : Int) :
    (in_bounds g x y = .ok true ∨ in_bounds g x y = .ok false) ∧
    (in_bounds g x y = .ok true ↔
      0 ≤ y ∧ y < (g.length : Int) ∧ 0 ≤ x ∧
        ∃ row, g[y.toNat]? = some row ∧ x < (row.length : Int)) ∧
    (g.length = 0 → in_bounds g x y = .ok false) := by
  refine ⟨in_bounds_cases g x y, ?_, ?_⟩
  · rw [in_bounds_true_iff]
    constructor
    · rintro ⟨h1, h2, h3, h4⟩
      obtain ⟨row, _, hrow⟩ := vec_get_of_lt h1 h2
      refine ⟨h1, h2, h3, row, hrow, ?_⟩
      have : g.getD y.toNat [] = row := by simp [hrow]
      rw [this] at h4; exact h4
    · rintro ⟨h1, h2, h3, row, hrow, h4⟩
      refine ⟨h1, h2, h3, ?_⟩
      have : g.getD y.toNat [] = row := by simp [hrow]
      rw [this]; exact h4
  · intro h0
    rcases in_bounds_cases g x y with h | h
    · rw [in_bounds_true_iff] at h
      omega
    · exact h

/-- C8 as amended: on a rectangular grid with an in-bounds start whose cell is
passable, for every graph of the grid (`make_adj_list (H * W)` and
`add_undirected_edge` for exactly the pairs of 4-adjacent passable cells, cell
`(x, y)` being node `y * W + x`) `bfs_dist` from the id of `start` and
`bfs_dist_grid` from `start` both return, and the entry at the id of a cell is
the entry at the cell. -/
theorem bfs_dist_grid_graph_agree {α : Type} (g : Grid2D α) (start : Point2i)
    (passable : α → Bool) (hr : Rectangular g) (hopen : OpenCell g passable start) :
    GraphAgrees g start passable := by
  intro G hGG
  obtain ⟨hlen, hG⟩ := gridGraph_edges hGG
  have hwf := gridGraph_wellFormed hr hGG
  obtain ⟨sy0, sy1, sx0, sx1⟩ := openCell_range hr hopen
  obtain ⟨hs0, hs1⟩ := cell_id_range sy0 sy1 sx0 sx1
  obtain ⟨dg, hrung, hleng, hqg⟩ :=
    bfs_dist_inv G (cell_id (grid_width g) start) hwf hs0 (by rw [hlen]; exact hs1)
  obtain ⟨s, hrunm, hshape, hqm, _, _⟩ := bfs_grid_run_inv g start passable hr hopen.1
  refine ⟨dg, s.dist, hrung, by simp [bfs_dist_grid, hrunm], ?_⟩
  intro c hc
  obtain ⟨cy0, cy1, cx0, cx1⟩ := (rect_in_bounds hr _ _).mp hc
  obtain ⟨hc0, hc1⟩ := cell_id_range cy0 cy1 cx0 cx1
  obtain ⟨_, dm, _, _, _, _, _, hgetm⟩ := shape_cell hshape cy0 cy1 cx0 cx1
  obtain ⟨d, hgetg, _⟩ := vec_get_of_lt hc0 (by rw [hleng, hlen]; exact hc1)
  have hvm : mdist s.dist c = dm := mdist_of_get hgetm
  have hvg : vdist dg (cell_id (grid_width g) c) = d := vdist_of_get hgetg
  refine ⟨d, hgetg, ?_⟩
  rw [hgetm]
  congr 1
  by_cases hm1 : dm = -1
  · -- unreached in the grid: unreached in the graph as well
    by_contra hne
    have hd : vdist dg (cell_id (grid_width g) c) ≠ -1 := by
      rw [hvg]; intro h; apply hne; rw [hm1, h]
    obtain ⟨n, _, hwalk⟩ := hqg.sound _ hd
    obtain ⟨c1, hc1o, hid, hwalk1⟩ := graph_walk_to_grid hr hopen hG hwalk
    obtain ⟨_, _, c1x0, c1x1⟩ := openCell_range hr hc1o
    have hcc : c = c1 := cell_id_inj cx0 cx1 c1x0 c1x1 hid
    subst hcc
    exact (qinv_nil_walk _ _ hqm hwalk1).1 (by rw [hvm, hm1])
  · -- reached in the grid: the two shortest lengths bound each other
    obtain ⟨n, hn, hwalk⟩ := hqm.sound c (by rw [hvm]; exact hm1)
    obtain ⟨hg1, hg2⟩ := qinv_nil_walk _ _ hqg (grid_walk_to_graph hopen hG hwalk).2
    obtain ⟨m, hm, hwalkg⟩ := hqg.sound _ hg1
    obtain ⟨c1, hc1o, hid, hwalk1⟩ := graph_walk_to_grid hr hopen hG hwalkg
    obtain ⟨_, _, c1x0, c1x1⟩ := openCell_range hr hc1o
    have hcc : c = c1 := cell_id_inj cx0 cx1 c1x0 c1x1 hid
    subst hcc
    have := (qinv_nil_walk _ _ hqm hwalk1).2
    omega

/-- C8 at the grid `[".."]` from (0,0): the start is passable, `[[1],[0]]` is a
graph of the grid, and graph search agrees with grid search. -/
theorem bfs_dist_grid_graph_agree_witness :
    Rectangular free_grid ∧ OpenCell free_grid not_wall ⟨0, 0⟩ ∧
    GridGraph free_grid not_wall [[1], [0]] ∧ GraphAgrees free_grid ⟨0, 0⟩ not_wall :=
  ⟨by decide, ⟨by decide, '.', by decide, by decide⟩, free_grid_graph,
    bfs_dist_grid_graph_agree free_grid ⟨0, 0⟩ not_wall (by decide)
      ⟨by decide, '.', by decide, by decide⟩⟩

/-- C8 as stated fails at the grid `["#."]` from (0,0) with "not `#`": the grid
is rectangular and the start in bounds, the graph of the grid has no edge, so
`bfs_dist` leaves node 1 at `-1`, while `bfs_dist_grid` expands from the
impassable start and gives the cell (1,0) distance 1. -/
theorem graph_agree_fails_at_wall_start :
    Rectangular wall_grid ∧ in_bounds wall_grid 0 0 = .ok true ∧
    GridGraph wall_grid not_wall [[], []] ∧
    bfs_dist [[], []] (cell_id (grid_width wall_grid) ⟨0, 0⟩) = .ok [0, -1] ∧
    bfs_dist_grid wall_grid ⟨0, 0⟩ not_wall = .ok [[0, 1]] ∧
    ¬ GraphAgrees wall_grid ⟨0, 0⟩ not_wall := by
  refine ⟨by decide, by decide, wall_grid_graph, by decide, by decide, ?_⟩
  intro h
  obtain ⟨dg, dm, hg, hm, hall⟩ := h [[], []] wall_grid_graph
  have hg2 : bfs_dist [[], []] (cell_id (grid_width wall_grid) ⟨0, 0⟩) = .ok [0, -1] := by decide
  have hm2 : bfs_dist_grid wall_grid ⟨0, 0⟩ not_wall = .ok [[0, 1]] := by decide
  rw [hg2] at hg
  rw [hm2] at hm
  cases hg
  cases hm
  obtain ⟨d, h1, h2⟩ := hall ⟨1, 0⟩ (by decide)
  have h3 : vec_get ([0, -1] : List Int) (cell_id (grid_width wall_grid) ⟨1, 0⟩) = .ok (-1) := by
    decide
  have h4 : dist_get [[0, 1]] ⟨1, 0⟩ = .ok 1 := by decide
  rw [h3] at h1
  rw [h4] at h2
  cases h1
  cases h2

/-- C9: `parse_int_grid` yields one row per line, in order; the row of a line
is the sequence of the values `c - '0'` of its digit characters, in order, so
it has as many entries as the line has digits, each in 0..9; other characters
add nothing.  `["a1b2", "34"]` gives `[[1,2],[3,4]]`. -/
theorem parse_int_grid_spec (lines : List (List Char)) :
    (∀ c : Char, is_digit c = true ↔ '0' ≤ c ∧ c ≤ '9') ∧
    (parse_int_grid lines).length = lines.length ∧
    (∀ (i : Nat) (line : List Char), lines[i]? = some line →
      ∃ row, (parse_int_grid lines)[i]? = some row ∧
        row = (line.filter is_digit).map (fun c => (c.toNat : Int) - ('0'.toNat : Int)) ∧
        row.length = line.countP is_digit ∧ ∀ v ∈ row, 0 ≤ v ∧ v ≤ 9) ∧
    parse_int_grid [['a', '1', 'b', '2'], ['3', '4']] = [[1, 2], [3, 4]] := by
  refine ⟨?_, ?_, ?_, by decide⟩
  · intro c
    simp only [is_digit, Bool.and_eq_true, decide_eq_true_eq]
    exact Iff.rfl
  · rw [parse_int_grid_eq, List.length_map]
  · intro i line hline
    refine ⟨parse_int_row line, ?_, parse_int_row_eq line, ?_, ?_⟩
    · rw [parse_int_grid_eq, List.getElem?_map, hline]; rfl
    · rw [parse_int_row_eq, List.length_map, List.countP_eq_length_filter]
    · intro v hv
      rw [parse_int_row_eq, List.mem_map] at hv
      obtain ⟨c, hc, rfl⟩ := hv
      have hd := (List.mem_filter.mp hc).2
      simp only [is_digit, Bool.and_eq_true, decide_eq_true_eq] at hd
      have h48 : '0'.toNat = 48 := by decide
      have h57 : '9'.toNat = 57 := by decide
      omega

/-- C10: `parse_char_grid` yields the lines themselves as rows, so `in_bounds`
on the result holds exactly for `0 <= y < lines.size()` and
`0 <= x < lines[y].size()`, and `at` of an in-bounds point is character `x` of
line `y`. -/
theorem parse_char_grid_spec (lines : List (List Char)) :
    parse_char_grid lines = lines ∧
    (∀ x y : Int, in_bounds (parse_char_grid lines) x y = .ok true ↔
      0 ≤ y ∧ y < (lines.length : Int) ∧ 0 ≤ x ∧
        ∃ line, lines[y.toNat]? = some line ∧ x < (line.length : Int)) ∧
    (∀ x y : Int, in_bounds (parse_char_grid lines) x y = .ok true →
      ∃ row c, lines[y.toNat]? = some row ∧ row[x.toNat]? = some c ∧
        grid_at (parse_char_grid lines) ⟨x, y⟩ = .ok c) := by
  rw [parse_char_grid_eq]
  refine ⟨rfl, ?_, ?_⟩
  · intro x y
    rw [in_bounds_true_iff]
    constructor
    · rintro ⟨h1, h2, h3, h4⟩
      obtain ⟨row, _, hrow⟩ := vec_get_of_lt h1 h2
      refine ⟨h1, h2, h3, row, hrow, ?_⟩
      have : lines.getD y.toNat [] = row := by simp [hrow]
      rw [this] at h4; exact h4
    · rintro ⟨h1, h2, h3, row, hrow, h4⟩
      refine ⟨h1, h2, h3, ?_⟩
      have : lines.getD y.toNat [] = row := by simp [hrow]
      rw [this]; exact h4
  · intro x y h
    rw [in_bounds_true_iff] at h
    obtain ⟨h1, h2, h3, h4⟩ := h
    obtain ⟨row, hrow, hrow2⟩ := vec_get_of_lt h1 h2
    have : lines.getD y.toNat [] = row := by simp [hrow2]
    rw [this] at h4
    obtain ⟨c, hc, hc2⟩ := vec_get_of_lt h3 h4
    exact ⟨row, c, hrow2, hc2, by simp [grid_at, hrow, hc]⟩

/-- C11: for `u`, `v` in `[0, n)`, `add_directed_edge(g, u, v)` returns a graph
with the same `n` nodes in which the neighbour list of `u` is its old list with
`v` appended, and the list of every other node is unchanged. -/
theorem add_directed_edge_frame (g : AdjList) (u v : Int) (hu0 : 0 ≤ u)
    (hu1 : u < (g.length : Int)) (hv0 : 0 ≤ v) (hv1 : v < (g.length : Int)) :
    ∃ nb g1, vec_get g u = .ok nb ∧ add_directed_edge g u v = .ok g1 ∧
      g1.length = g.length ∧ vec_get g1 u = .ok (nb ++ [v]) ∧
      ∀ w, w ≠ u → vec_get g1 w = vec_get g w := by
  have _ := hv0
  have _ := hv1
  obtain ⟨nb, hnb, hadd⟩ := add_directed_edge_ok g v hu0 hu1
  exact ⟨nb, _, hnb, hadd, List.length_set _ _ _, vec_get_set_self g _ hu0 hu1,
    fun w hw => vec_get_set_ne g _ hu0 hw⟩

/-- C11 at the path graph: the directed edge from 0 to 3. -/
theorem add_directed_edge_frame_witness :
    add_directed_edge path_graph 0 3 = .ok [[1, 3], [0, 2], [1, 3], [2]] ∧
    ∃ nb g1, vec_get path_graph 0 = .ok nb ∧ add_directed_edge path_graph 0 3 = .ok g1 ∧
      g1.length = path_graph.length ∧ vec_get g1 0 = .ok (nb ++ [3]) ∧
      ∀ w, w ≠ 0 → vec_get g1 w = vec_get path_graph w :=
  ⟨by decide,
    add_directed_edge_frame path_graph 0 3 (by decide) (by decide) (by decide) (by decide)⟩

/-- C12: `add_undirected_edge(g, u, v)` is `add_directed_edge(g, u, v)` followed
by `add_directed_edge(., v, u)`; for `u`, `v` in `[0, n)` it returns a graph with
the same nodes in which the list of a node `w` is its old list, then `v` when
`w = u`, then `u` when `w = v`: a self-loop (`u = v`) adds two entries, and an
edge already present is added again. -/
theorem add_undirected_edge_two_directed (g : AdjList) (u v : Int) (hu0 : 0 ≤ u)
    (hu1 : u < (g.length : Int)) (hv0 : 0 ≤ v) (hv1 : v < (g.length : Int)) :
    (add_undirected_edge g u v =
      match add_directed_edge g u v with
      | .ok g1 => add_directed_edge g1 v u
      | .error e => .error e) ∧
    ∃ g1 g2, add_directed_edge g u v = .ok g1 ∧ add_directed_edge g1 v u = .ok g2 ∧
      add_undirected_edge g u v = .ok g2 ∧ g2.length = g.length ∧
      ∀ w nb, vec_get g w = .ok nb →
        vec_get g2 w =
          .ok (nb ++ (if w = u then [v] else []) ++ (if w = v then [u] else [])) := by
  refine ⟨add_undirected_edge_eq g u v, ?_⟩
  obtain ⟨nbu, hnbu, h1⟩ := add_directed_edge_ok g v hu0 hu1
  have hl1 : (g.set u.toNat (nbu ++ [v])).length = g.length := List.length_set _ _ _
  obtain ⟨nbv, hnbv, h2⟩ := add_directed_edge_ok (g.set u.toNat (nbu ++ [v])) u hv0
    (by rw [hl1]; exact hv1)
  refine ⟨_, _, h1, h2, by rw [add_undirected_edge_eq, h1]; exact h2, ?_, ?_⟩
  · rw [List.length_set, hl1]
  · intro w nb hw
    by_cases hwv : w = v
    · subst hwv
      rw [vec_get_set_self _ _ hv0 (by rw [hl1]; exact hv1), if_pos rfl]
      by_cases hwu : w = u
      · subst hwu
        rw [vec_get_set_self g _ hu0 hu1] at hnbv
        rw [hnbu] at hw
        cases hw
        cases hnbv
        simp
      · rw [vec_get_set_ne g _ hu0 hwu, hw] at hnbv
        cases hnbv
        simp [hwu]
    · rw [vec_get_set_ne _ _ hv0 hwv, if_neg hwv]
      by_cases hwu : w = u
      · subst hwu
        rw [hnbu] at hw
        cases hw
        rw [vec_get_set_self g _ hu0 hu1]
        simp
      · rw [vec_get_set_ne g _ hu0 hwu, hw]
        simp [hwu]

/-- C12 at the path graph: the edge (0,1) once more, and the self-loop at 3. -/
theorem add_undirected_edge_two_directed_witness :
    add_undirected_edge path_graph 0 1 = .ok [[1, 1], [0, 2, 0], [1, 3], [2]] ∧
    add_undirected_edge path_graph 3 3 = .ok [[1], [0, 2], [1, 3], [2, 3, 3]] ∧
    (add_undirected_edge path_graph 3 3 =
      match add_directed_edge path_graph 3 3 with
      | .ok g1 => add_directed_edge g1 3 3
      | .error e => .error e) ∧
    ∃ g1 g2, add_directed_edge path_graph 3 3 = .ok g1 ∧ add_directed_edge g1 3 3 = .ok g2 ∧
      add_undirected_edge path_graph 3 3 = .ok g2 ∧ g2.length = path_graph.length ∧
      ∀ w nb, vec_get path_graph w = .ok nb →
        vec_get g2 w =
          .ok (nb ++ (if w = 3 then [3] else []) ++ (if w = 3 then [3] else [])) :=
  ⟨by decide, by decide,
    add_undirected_edge_two_directed path_graph 3 3 (by decide) (by decide) (by decide)
      (by decide)⟩

/-- C13: for `n >= 0`, `make_adj_list(n)` has `n` nodes with empty neighbour
lists, and every sequence of `add_directed_edge` / `add_undirected_edge` calls
with endpoints in `[0, n)` runs without a fault and yields a graph with `n`
nodes whose neighbour ids all lie in `[0, n)`. -/
theorem make_adj_list_calls (n : Int) (hn : 0 ≤ n) (calls : List EdgeCall)
    (hcalls : ∀ c ∈ calls, c.InRange n.toNat) :
    ∃ g0, make_adj_list n = .ok g0 ∧ (g0.length : Int) = n ∧ (∀ nb ∈ g0, nb = []) ∧
      ∃ g, apply_calls g0 calls = .ok g ∧ (g.length : Int) = n ∧ WellFormed g := by
  have h0 : make_adj_list n = .ok (List.replicate n.toNat []) := by
    simp [make_adj_list, not_lt.mpr hn]
  have hl0 : (List.replicate n.toNat ([] : List Int)).length = n.toNat :=
    List.length_replicate _ _
  have hw0 : WellFormed (List.replicate n.toNat ([] : List Int)) := by
    intro nb hnb v hv
    rw [List.eq_of_mem_replicate hnb] at hv
    exact absurd hv (List.not_mem_nil _)
  obtain ⟨g, hg, hl, hw⟩ := apply_calls_spec calls _ hw0 (by rw [hl0]; exact hcalls)
  refine ⟨_, h0, by rw [hl0]; omega, fun nb hnb => List.eq_of_mem_replicate hnb,
    g, hg, by rw [hl, hl0]; omega, hw⟩

/-- C13 at `n = 4` with the calls that build the path graph and a directed
edge from 3 to 0. -/
theorem make_adj_list_calls_witness :
    apply_calls [[], [], [], []]
        [.undirected 0 1, .undirected 1 2, .undirected 2 3, .directed 3 0]
      = .ok [[1], [0, 2], [1, 3], [2, 0]] ∧
    ∃ g0, make_adj_list 4 = .ok g0 ∧ (g0.length : Int) = 4 ∧ (∀ nb ∈ g0, nb = []) ∧
      ∃ g, apply_calls g0 [.undirected 0 1, .undirected 1 2, .undirected 2 3, .directed 3 0]
          = .ok g ∧ (g.length : Int) = 4 ∧ WellFormed g :=
  ⟨by decide,
    make_adj_list_calls 4 (by decide)
      [.undirected 0 1, .undirected 1 2, .undirected 2 3, .directed 3 0] (by
        intro c hc
        simp only [List.mem_cons, List.mem_singleton, List.not_mem_nil, or_false] at hc
        rcases hc with rfl | rfl | rfl | rfl <;> exact ⟨by decide, by decide⟩)⟩

/-- C14: on a well-formed graph with `u`, `v`, `src` in `[0, n)`, when `v` is
already in the list of `u` and `u` in the list of `v`, inserting the edge again
with `add_undirected_edge(g, u, v)` succeeds and leaves the result of
`bfs_dist` from `src` unchanged. -/
theorem bfs_dist_duplicate_edge (g : AdjList) (u v src : Int) (hg : WellFormed g)
    (hu0 : 0 ≤ u) (hu1 : u < (g.length : Int)) (hv0 : 0 ≤ v) (hv1 : v < (g.length : Int))
    (hs0 : 0 ≤ src) (hs1 : src < (g.length : Int))
    (huv : GraphStep g u v) (hvu : GraphStep g v u) :
    ∃ g2 dist, add_undirected_edge g u v = .ok g2 ∧ bfs_dist g src = .ok dist ∧
      bfs_dist g2 src = .ok dist := by
  obtain ⟨g2, hg2⟩ := add_undirected_edge_ok g hu0 hu1 hv0 hv1
  obtain ⟨hl, he⟩ := add_undirected_edge_spec hg2
  have hE : ∀ a b, GraphStep g a b ↔ GraphStep g2 a b := by
    intro a b
    rw [he]
    constructor
    · intro h; exact Or.inl h
    · rintro (h | ⟨rfl, rfl⟩ | ⟨rfl, rfl⟩)
      · exact h
      · exact huv
      · exact hvu
  have hw2 : WellFormed g2 := by
    rw [wellFormed_iff_steps] at hg ⊢
    intro a b hab
    rw [hl]
    exact hg a b ((hE a b).mpr hab)
  obtain ⟨dist, hd, _⟩ := bfs_dist_inv g src hg hs0 hs1
  refine ⟨g2, dist, hg2, hd, ?_⟩
  rw [bfs_dist_congr hg hw2 hl hE hs0 hs1, hd]

/-- C14 at the path graph: the edge (1,2) inserted a second time. -/
theorem bfs_dist_duplicate_edge_witness :
    bfs_dist [[1], [0, 2, 2], [1, 3, 1], [2]] 0 = .ok [0, 1, 2, 3] ∧
    ∃ g2 dist, add_undirected_edge path_graph 1 2 = .ok g2 ∧
      bfs_dist path_graph 0 = .ok dist ∧ bfs_dist g2 0 = .ok dist :=
  ⟨by decide,
    bfs_dist_duplicate_edge path_graph 1 2 0 (by decide) (by decide) (by decide) (by decide)
      (by decide) (by decide) (by decide) ⟨[0, 2], by decide, by decide⟩
      ⟨[1, 3], by decide, by decide⟩⟩

/-- C15: over exact integers `gcd(a, b)` returns the greatest common divisor of
`|a|` and `|b|`: it is non-negative, divides `a` and `b`, is divided by every
common divisor, `gcd(a, 0) = gcd(0, a) = |a|`, and the result for `a`, `b` is
the result for `|a|`, `|b|`. -/
theorem gcd_spec (a b : Int) :
    ∃ r, gcd a b = .ok r ∧ r = ((Nat.gcd a.natAbs b.natAbs : Nat) : Int) ∧
      0 ≤ r ∧ r ∣ a ∧ r ∣ b ∧ (∀ c : Int, c ∣ a → c ∣ b → c ∣ r) ∧
      gcd a 0 = .ok (a.natAbs : Int) ∧ gcd 0 a = .ok (a.natAbs : Int) ∧
      gcd (a.natAbs : Int) (b.natAbs : Int) = .ok r ∧
      gcd (-a) b = .ok r ∧ gcd a (-b) = .ok r ∧ gcd (-a) (-b) = .ok r := by
  have hg : ∀ x y : Int, gcd x y = .ok ((Nat.gcd x.natAbs y.natAbs : Nat) : Int) :=
    fun x y => gcd_loop_eq y.natAbs x y (le_refl _)
  refine ⟨_, hg a b, rfl, Int.ofNat_nonneg _, ?_, ?_, ?_, ?_, ?_, ?_, ?_, ?_, ?_⟩
  · exact Int.gcd_dvd_left
  · exact Int.gcd_dvd_right
  · intro c hca hcb
    exact Int.dvd_gcd hca hcb
  · rw [hg]; simp
  · rw [hg]; simp
  · rw [hg, Int.natAbs_ofNat, Int.natAbs_ofNat]
  · rw [hg, Int.natAbs_neg]
  · rw [hg, Int.natAbs_neg]
  · rw [hg, Int.natAbs_neg, Int.natAbs_neg]

/-- C16: on a rectangular grid with an in-bounds start, every cell other than
`start` whose entry `d` is non-negative is in bounds and passable, and one of
its four axis neighbours holds exactly `d - 1`. -/
theorem bfs_dist_grid_predecessor {α : Type} (g : Grid2D α) (start : Point2i)
    (passable : α → Bool) (hr : Rectangular g)
    (hin : in_bounds g start.x start.y = .ok true) :
    ∃ dist, bfs_dist_grid g start passable = .ok dist ∧
      ∀ (c : Point2i) (d : Int), c ≠ start → dist_get dist c = .ok d → 0 ≤ d →
        in_bounds g c.x c.y = .ok true ∧
        (∃ v, grid_at g c = .ok v ∧ passable v = true) ∧
        ∃ dir ∈ DIR4, dist_get dist ⟨c.x + dir.x, c.y + dir.y⟩ = .ok (d - 1) := by
  obtain ⟨s, hrun, _, hq, _, _⟩ := bfs_grid_run_inv g start passable hr hin
  refine ⟨s.dist, by simp [bfs_dist_grid, hrun], ?_⟩
  intro c d hc hget hd
  have hm : mdist s.dist c = d := mdist_of_get hget
  obtain ⟨n, hn, hwalk⟩ := hq.sound c (by rw [hm]; omega)
  cases hwalk with
  | start => exact absurd rfl hc
  | @step m v _ hw hE =>
    obtain ⟨⟨dir, hdir, hcv⟩, hcin, hcpass⟩ := id hE
    refine ⟨hcin, hcpass, ⟨-dir.x, -dir.y⟩, dir4_neg_mem hdir, ?_⟩
    obtain ⟨hv1, hv2⟩ := qinv_nil_walk _ _ hq hw
    obtain ⟨_, hc2⟩ := hq.closed v hv1 (List.not_mem_nil _) c hE
    have hvd : mdist s.dist v = d - 1 := by
      rw [hm] at hn hc2
      push_cast at hn
      omega
    have hback : (⟨c.x + -dir.x, c.y + -dir.y⟩ : Point2i) = v := by
      rw [hcv]
      cases v
      simp
    rw [hback, ← hvd]
    exact mdist_vis hv1

/-- C16 at the grid `["...", ".#.", "..."]` from (0,0): the cell (2,2) holds 4
and its neighbour (1,2) holds 3. -/
theorem bfs_dist_grid_predecessor_witness :
    (∃ dist, bfs_dist_grid ring_grid ⟨0, 0⟩ not_wall = .ok dist ∧
      dist_get dist ⟨2, 2⟩ = .ok 4 ∧ dist_get dist ⟨1, 2⟩ = .ok 3) ∧
    ∃ dist, bfs_dist_grid ring_grid ⟨0, 0⟩ not_wall = .ok dist ∧
      ∀ (c : Point2i) (d : Int), c ≠ ⟨0, 0⟩ → dist_get dist c = .ok d → 0 ≤ d →
        in_bounds ring_grid c.x c.y = .ok true ∧
        (∃ v, grid_at ring_grid c = .ok v ∧ not_wall v = true) ∧
        ∃ dir ∈ DIR4, dist_get dist ⟨c.x + dir.x, c.y + dir.y⟩ = .ok (d - 1) :=
  ⟨⟨[[0, 1, 2], [1, -1, 3], [2, 3, 4]], by decide, by decide, by decide⟩,
    bfs_dist_grid_predecessor ring_grid ⟨0, 0⟩ not_wall (by decide) (by decide)⟩

/-- C17: on a rectangular grid with an in-bounds start the queue loop of
`bfs_dist_grid` ends with an empty queue; the sequence of pushed cells has no
repetition, it holds exactly the cells that end with an entry other than `-1`,
and its length, the number of pushes, is at most `H * W`.  The states the run
passes through end in the state returned; between two consecutive states
either the matrix is untouched and nothing is pushed, or one cell holding `-1`
is written with another value and pushed (`WriteStep`); so an entry other than
`-1` in any state is the entry of every later state and of the result: a
distance is written once and never changed afterwards. -/
theorem bfs_dist_grid_pushes_once {α : Type} (g : Grid2D α) (start : Point2i)
    (passable : α → Bool) (hr : Rectangular g)
    (hin : in_bounds g start.x start.y = .ok true) :
    ∃ s log states, bfs_grid_run g start passable = .ok s ∧ s.q = [] ∧
      bfs_grid_pushes g start passable = .ok log ∧ log.Nodup ∧
      s.pushes = log.length ∧ log.length ≤ g.length * grid_width g ∧
      (∀ c, c ∈ log ↔ ∃ d, dist_get s.dist c = .ok d ∧ d ≠ -1) ∧
      bfs_grid_run_states g start passable = .ok states ∧
      states.getLast? = some s ∧
      List.Chain' WriteStep states ∧
      states.Pairwise KeepsEntries ∧
      ∀ a ∈ states, ∀ c, mdist a.dist c ≠ -1 → mdist s.dist c = mdist a.dist c := by
  obtain ⟨s, hrun, _, _, hnil, hpush⟩ := bfs_grid_run_inv g start passable hr hin
  obtain ⟨hy0, hy1, hx0, hx1⟩ := (rect_in_bounds hr _ _).mp hin
  obtain ⟨dist0, hset, _, hD, _⟩ :=
    dist_set_in (shape_replicate g.length (grid_width g)) (p := start) 0 hy0 hy1 hx0 hx1
  have hD0 : ∀ c, mdist dist0 c = if c = start then 0 else -1 := by
    intro c; rw [hD c, mdist_replicate]
  have hloop : bfs_grid_loop g passable (g.length * grid_width g)
      { dist := dist0, q := [start], probes := 0, pushes := 1 } = .ok s := by
    have h := hrun
    simp only [bfs_grid_run, hin, hset] at h
    exact h
  obtain ⟨log, hl1, hl2, hl3, hl4, hl5⟩ :=
    bfs_grid_pushed_spec g passable _ _ s hloop (by
      intro c
      show -1 ≤ mdist dist0 c
      rw [hD0 c]
      by_cases hc : c = start
      · rw [if_pos hc]; decide
      · rw [if_neg hc])
  have hstart : start ∉ log := by
    intro hmem
    have h := hl3 start hmem
    have h2 : mdist dist0 start = -1 := h
    rw [hD0 start, if_pos rfl] at h2
    exact absurd h2 (by decide)
  have hlen : s.pushes = (start :: log).length := by
    rw [hl4, List.length_cons]
    show 1 + log.length = log.length + 1
    omega
  obtain ⟨states, hst, hlast, hchain⟩ := bfs_grid_run_states_spec g start passable hr hin hrun
  have hpair : states.Pairwise KeepsEntries :=
    List.chain'_iff_pairwise.mp (hchain.imp (fun _ _ h => writeStep_keeps h))
  refine ⟨s, start :: log, states, hrun, hnil, ?_, List.nodup_cons.mpr ⟨hstart, hl2⟩, hlen,
    ?_, ?_, hst, hlast, hchain, hpair, ?_⟩
  · simp only [bfs_grid_pushes, hin, hset, hl1]
  · rw [← hlen]; omega
  · intro c
    have hiff : c ∈ start :: log ↔ mdist s.dist c ≠ -1 := by
      rw [hl5 c, List.mem_cons]
      show _ ↔ (mdist dist0 c ≠ -1 ∨ c ∈ log)
      rw [hD0 c]
      by_cases hc : c = start
      · simp [hc]
      · simp [hc]
    rw [hiff]
    constructor
    · intro h; exact ⟨_, mdist_vis h, h⟩
    · rintro ⟨d, hd, hne⟩; rw [mdist_of_get hd]; exact hne
  · exact pairwise_getLast (fun _ _ _ => rfl) states s hpair hlast

/-- C17 at the grid `["...", ".#.", "..."]` from (0,0): eight pushes, one for
each free cell. -/
theorem bfs_dist_grid_pushes_once_witness :
    bfs_grid_pushes ring_grid ⟨0, 0⟩ not_wall
      = .ok [⟨0, 0⟩, ⟨1, 0⟩, ⟨0, 1⟩, ⟨2, 0⟩, ⟨0, 2⟩, ⟨2, 1⟩, ⟨1, 2⟩, ⟨2, 2⟩] ∧
    ∃ s log states, bfs_grid_run ring_grid ⟨0, 0⟩ not_wall = .ok s ∧ s.q = [] ∧
      bfs_grid_pushes ring_grid ⟨0, 0⟩ not_wall = .ok log ∧ log.Nodup ∧
      s.pushes = log.length ∧ log.length ≤ ring_grid.length * grid_width ring_grid ∧
      (∀ c, c ∈ log ↔ ∃ d, dist_get s.dist c = .ok d ∧ d ≠ -1) ∧
      bfs_grid_run_states ring_grid ⟨0, 0⟩ not_wall = .ok states ∧
      states.getLast? = some s ∧
      List.Chain' WriteStep states ∧
      states.Pairwise KeepsEntries ∧
      ∀ a ∈ states, ∀ c, mdist a.dist c ≠ -1 → mdist s.dist c = mdist a.dist c :=
  ⟨by decide, bfs_dist_grid_pushes_once ring_grid ⟨0, 0⟩ not_wall (by decide) (by decide)⟩

/-- C18: `bfs_dist_grid` never reads the start cell: two rectangular grids of
the same row shape that agree on every cell but `start` give the same result
from an in-bounds `start`; the start holds 0 whatever its cell is, and every
in-bounds passable neighbour of the start holds 1. -/
theorem bfs_dist_grid_ignores_start {α : Type} (g1 g2 : Grid2D α) (start : Point2i)
    (passable : α → Bool) (hr1 : Rectangular g1) (hr2 : Rectangular g2)
    (hshape : g1.map List.length = g2.map List.length)
    (hagree : ∀ c, c ≠ start → grid_at g1 c = grid_at g2 c)
    (hin : in_bounds g1 start.x start.y = .ok true) :
    bfs_dist_grid g1 start passable = bfs_dist_grid g2 start passable ∧
    ∃ dist, bfs_dist_grid g1 start passable = .ok dist ∧ dist_get dist start = .ok 0 ∧
      ∀ c, GridStep g1 passable start c → dist_get dist c = .ok 1 := by
  have _ := hr2
  refine ⟨?_, ?_⟩
  · unfold bfs_dist_grid
    rw [bfs_grid_run_congr passable start hshape hagree]
  · obtain ⟨s, hrun, _, hq, _, _⟩ := bfs_grid_run_inv g1 start passable hr1 hin
    refine ⟨s.dist, by simp [bfs_dist_grid, hrun], ?_, ?_⟩
    · have h0 := @mdist_vis s.dist start (by rw [hq.src0]; decide)
      rw [hq.src0] at h0
      exact h0
    · intro c hE
      obtain ⟨hv, hle⟩ := qinv_nil_walk _ _ hq (Walk.step Walk.start hE)
      obtain ⟨n, hn, hw⟩ := hq.sound c hv
      have hn0 : n ≠ 0 := by
        rintro rfl
        have hcs := walk_zero hw
        obtain ⟨⟨dir, hdir, hc⟩, _⟩ := hE
        rw [hcs] at hc
        apply dir4_ne_zero hdir
        have hx := congrArg Point2i.x hc
        have hy := congrArg Point2i.y hc
        simp only at hx hy
        constructor <;> omega
      have h1 : mdist s.dist c = 1 := by
        push_cast at hle
        omega
      rw [← h1]
      exact mdist_vis hv

/-- C18 at the grids `["#."]` and `[".."]` from (0,0): the start is a wall in
the first and free in the second, and both give `[[0, 1]]`. -/
theorem bfs_dist_grid_ignores_start_witness :
    bfs_dist_grid wall_grid ⟨0, 0⟩ not_wall = .ok [[0, 1]] ∧
    bfs_dist_grid free_grid ⟨0, 0⟩ not_wall = .ok [[0, 1]] ∧
    bfs_dist_grid wall_grid ⟨0, 0⟩ not_wall = bfs_dist_grid free_grid ⟨0, 0⟩ not_wall ∧
    ∃ dist, bfs_dist_grid wall_grid ⟨0, 0⟩ not_wall = .ok dist ∧
      dist_get dist ⟨0, 0⟩ = .ok 0 ∧
      ∀ c, GridStep wall_grid not_wall ⟨0, 0⟩ c → dist_get dist c = .ok 1 :=
  ⟨by decide, by decide,
    bfs_dist_grid_ignores_start wall_grid free_grid ⟨0, 0⟩ not_wall (by decide) (by decide)
      (by decide) wall_free_agree (by decide)⟩

/-- C19: on a rectangular grid with an in-bounds start no index of
`bfs_dist_grid` is out of range: the run, in which every access to `dist` and
to the grid is range-checked, ends without a fault. -/
theorem bfs_dist_grid_in_range {α : Type} (g : Grid2D α) (start : Point2i)
    (passable : α → Bool) (hr : Rectangular g)
    (hin : in_bounds g start.x start.y = .ok true) :
    (∃ s, bfs_grid_run g start passable = .ok s) ∧
    (∃ dist, bfs_dist_grid g start passable = .ok dist) ∧
    bfs_dist_grid g start passable ≠ .error .out_of_range := by
  obtain ⟨s, hrun, _⟩ := bfs_grid_run_inv g start passable hr hin
  have hd : bfs_dist_grid g start passable = .ok s.dist := by simp [bfs_dist_grid, hrun]
  refine ⟨⟨s, hrun⟩, ⟨s.dist, hd⟩, ?_⟩
  rw [hd]
  exact fun h => by cases h

/-- C19 at the grid `["...", ".#.", "..."]` from (0,0). -/
theorem bfs_dist_grid_in_range_witness :
    (∃ s, bfs_grid_run ring_grid ⟨0, 0⟩ not_wall = .ok s) ∧
    (∃ dist, bfs_dist_grid ring_grid ⟨0, 0⟩ not_wall = .ok dist) ∧
    bfs_dist_grid ring_grid ⟨0, 0⟩ not_wall ≠ .error .out_of_range :=
  bfs_dist_grid_in_range ring_grid ⟨0, 0⟩ not_wall (by decide) (by decide)

/-- C20, the code at a line that holds only a carriage return: with
`skip_empty = true`, `split_lines("\r\n")` tests the line `"\r"` for emptiness
before it strips the carriage return, and returns one empty line. -/
theorem split_lines_cr_only :
    split_lines ['\r', '\n'] true = [[]] ∧
    split_lines ['a', '\r', '\n', '\r', '\n', 'b'] true = [['a'], [], ['b']] := by
  decide

end Chrym
